import Mathlib

/-!
Shallow embedding of the `listb` bibliography library
(`src/listb/pybibtools.py` and `src/listb/normalizeTeX.py`).

Records are Python dicts (string keys, string values) modelled as
insertion-ordered association lists; the dictionary operations below
mirror Python semantics: assignment replaces the value of an existing
key in place (keeping its position) and appends a fresh key at the end,
`update` folds assignment over the other dict's items in order, and
`del` removes the entry.  A `Bibliography` is its list of record dicts;
exceptions are modelled with `Except`.
-/

namespace Dict

/-- `d[k]` / `d.get(k)`: value of the first entry with key `k`. -/
def get? {α : Type} : List (String × α) → String → Option α
  | [], _ => none
  | p :: rest, k => if p.1 = k then some p.2 else get? rest k

/-- Python `k in d`. -/
def hasKey {α : Type} (d : List (String × α)) (k : String) : Bool :=
  (get? d k).isSome

/-- Python `d[k] = v`: replace in place if the key exists, else append. -/
def insert {α : Type} : List (String × α) → String → α → List (String × α)
  | [], k, v => [(k, v)]
  | p :: rest, k, v => if p.1 = k then (k, v) :: rest else p :: insert rest k v

/-- Python `d.update(e)`: assign every item of `e` into `d`, in order. -/
def update {α : Type} (d e : List (String × α)) : List (String × α) :=
  e.foldl (fun acc p => insert acc p.1 p.2) d

/-- Python `del d[k]`. -/
def erase {α : Type} (d : List (String × α)) (k : String) : List (String × α) :=
  d.filter (fun p => decide (p.1 ≠ k))

/-- Python `d.keys()` (in insertion order). -/
def keys {α : Type} (d : List (String × α)) : List String :=
  d.map (·.1)

/-- Python `d.values()` (in insertion order). -/
def values {α : Type} (d : List (String × α)) : List α :=
  d.map (·.2)

/-- Left-biased choice of field values: the overlay of two lookups. -/
def fieldPrec {α : Type} (x y : Option α) : Option α :=
  match x with
  | some v => some v
  | none => y

end Dict

/-- One bibliographic entry: a Python dict from field name to field value. -/
abbrev Record := List (String × String)

/-! String helpers mirroring the Python string operations used by the code. -/

/-- Python `sep.join(l)` (for the literal separators used in the source). -/
def pyJoin (sep : String) : List String → String
  | [] => ""
  | [s] => s
  | s :: rest => s ++ sep ++ pyJoin sep rest

/-- Auxiliary of `pySplit`: prepend a char to the first piece. -/
def consHead (c : Char) : List (List Char) → List (List Char)
  | [] => [[c]]
  | l :: ls => (c :: l) :: ls

/-- Auxiliary of `pySplit`, fuelled by the length of the string; each step
consumes at least one character, so fuel `s.length` computes Python's
non-overlapping left-to-right split exactly. -/
def splitSepAux (sep : List Char) : Nat → List Char → List (List Char)
  | 0, s => [s]
  | _ + 1, [] => [[]]
  | fuel + 1, c :: cs =>
    if sep ≠ [] ∧ sep.isPrefixOf (c :: cs) then
      [] :: splitSepAux sep fuel ((c :: cs).drop sep.length)
    else
      consHead c (splitSepAux sep fuel cs)

/-- Python `s.split(sep)` for a non-empty separator. -/
def pySplit (sep : String) (s : String) : List String :=
  (splitSepAux sep.toList s.toList.length s.toList).map String.mk

/-- Auxiliary of `strReplace`, fuelled by the length of the string;
each step consumes at least one character. -/
def strReplaceAux (pat sub : List Char) : Nat → List Char → List Char
  | 0, s => s
  | _ + 1, [] => []
  | fuel + 1, c :: cs =>
    if pat ≠ [] ∧ pat.isPrefixOf (c :: cs) then
      sub ++ strReplaceAux pat sub fuel ((c :: cs).drop pat.length)
    else
      c :: strReplaceAux pat sub fuel cs

/-- Python `s.replace(pat, sub)` for a non-empty pattern:
non-overlapping replacement, scanning left to right. -/
def strReplace (pat sub : List Char) (s : List Char) : List Char :=
  strReplaceAux pat sub s.length s

namespace NormalizeTeX

/-- The replacement table `latex_to_ascii.dict`, in source (insertion) order.
(`\x27` is an apostrophe, `\x60` a backtick.) -/
def latexToAsciiDict : List (String × String) :=
  [("\\\x27", ""), ("\\l", "l"), ("\\\x60", ""), ("\\^", ""), ("\\H", ""),
   ("\\~", ""), ("\\c", ""), ("\\k", ""), ("\\=", ""), ("\\b", ""),
   ("\\.", ""), ("\\d", ""), ("\\r", ""), ("\\aa", "å"), ("\\u", ""),
   ("\\v", ""), ("\\t", ""), ("\\o", "ø"), ("\\ss", "ß")]

/-- The replacement loop of `latex_to_ascii`:
`for pat, sub in latex_to_ascii.dict.items(): tex = tex.replace(pat, sub)`. -/
def applyReplacements (cs : List Char) : List Char :=
  latexToAsciiDict.foldl (fun s p => strReplace p.1.toList p.2.toList s) cs

/-- `latex_to_ascii(tex)`.  The trailing steps
`latex_to_unicode` (external library `bibtexparser.latexenc`),
`unicodedata.normalize('NFD', ·)` and `encode('ascii','ignore')`
are external collaborators (out of the repository); they are taken as the
abstract parameter `post : String → String`, so every theorem below holds
for an arbitrary behaviour of the external decoder (hypotheses on `post`
state the interface the spec assigns to it). -/
def latex_to_ascii (post : String → String) (tex : String) : String :=
  post (String.mk (applyReplacements tex.toList))

/-- Python `\s` on the ASCII range (whitespace characters). -/
def isPySpace (c : Char) : Bool :=
  c = ' ' ∨ c = '\t' ∨ c = '\n' ∨ c = '\r' ∨ c = '\x0b' ∨ c = '\x0c'

/-- The character class kept by the substitution `re.sub(r'\s|\W|_', '', ·)`
(used by `_norm_author` and `norm_title`): word characters other than the
underscore.  On the ASCII strings produced by `latex_to_ascii` these are
exactly the alphanumeric characters. -/
def keepAlnum (s : String) : String :=
  String.mk (s.toList.filter Char.isAlphanum)

/-- Scan for the first `')'` not separated by a newline (the regex `.`
does not match a newline); returns the suffix after it. -/
def findClose : List Char → Option (List Char)
  | [] => none
  | ')' :: r => some r
  | '\n' :: _ => none
  | _ :: r => findClose r

/-- Auxiliary of `removeParens`, fuelled by the length of the string;
each step consumes at least one character. -/
def removeParensAux : Nat → List Char → List Char
  | 0, s => s
  | _ + 1, [] => []
  | fuel + 1, c :: cs =>
    let l := c :: cs
    let ws := l.takeWhile isPySpace
    match (l.drop ws.length) with
    | '(' :: r =>
      (match findClose r with
       | some after => removeParensAux fuel (after.dropWhile isPySpace)
       | none => c :: removeParensAux fuel cs)
    | _ => c :: removeParensAux fuel cs

/-- `re.sub(r'\s*\(.*?\)\s*', '', ·)` of `_norm_author`: drop every
parenthesized alias segment together with surrounding whitespace,
scanning left to right. -/
def removeParens (s : List Char) : List Char :=
  removeParensAux s.length s

/-- `_norm_author(author)`: `latex_to_ascii`, then strip parenthesized
segments, then drop every non-alphanumeric character. -/
def norm_author_one (post : String → String) (author : String) : String :=
  keepAlnum (String.mk (removeParens (latex_to_ascii post author).toList))

/-- The surname component used after `bc.getnames`: `a.split(',')[0]`. -/
def surnamePart (a : String) : String :=
  match pySplit "," a with
  | [] => a
  | x :: _ => x

/-- Python string comparison (code-point lexicographic), as used by
`list.sort()` on the surname tokens. -/
def strLeChars : List Char → List Char → Bool
  | [], _ => true
  | _ :: _, [] => false
  | a :: as, b :: bs =>
    if a.toNat < b.toNat then true
    else if b.toNat < a.toNat then false
    else strLeChars as bs

/-- Python `s <= t` on strings. -/
def pyStrLe (s t : String) : Bool :=
  strLeChars s.toList t.toList

/-- Python `list.sort()` on a list of strings. -/
def sortStrings (l : List String) : List String :=
  l.insertionSort (fun s t => pyStrLe s t = true)

/-- `norm_author(record)` on the raw `author` value: split on the literal
`" and "`, normalize each name with `bc.getnames` (external library,
taken as the abstract per-name parameter `gn`; it processes each name
independently, skipping a name it drops), take the part before the first
comma, apply `_norm_author`, sort, and join with single spaces. -/
def norm_author_str (gn : String → Option String) (post : String → String)
    (author : String) : String :=
  let authors := pySplit " and " author
  let authors := authors.filterMap gn
  let authors := authors.map surnamePart
  let authors := authors.map (norm_author_one post)
  pyJoin " " (sortStrings authors)

/-- `norm_title` on the raw `title` value: drop `$...$` formula spans
(`re.sub(r'\$[\w\W]*?\$', '', ·)`), apply `latex_to_ascii`, lowercase,
and drop every non-alphanumeric character. -/
def jA : List String → String
  | [] => ""
  | [a] => a
  | [a, b] => a ++ "$" ++ b
  | a :: _ :: rest => a ++ jA rest

/-- `re.sub(r'\$[\w\W]*?\$', '', s)`: consecutive `$` pairs are consumed
left to right (non-greedy, `[\w\W]` matches any character); a final
unmatched `$` stays. -/
def removeFormulas (s : String) : String :=
  jA (pySplit "$" s)

/-- `norm_title(record)` on the raw `title` value. -/
def norm_title_str (post : String → String) (title : String) : String :=
  let t := removeFormulas title
  let t := latex_to_ascii post t
  let t := String.mk (t.toList.map Char.toLower)
  keepAlnum t

/-- `make_key(record, *keys)` from `normalizeTeX.py`:
`'-'.join([record.get(key, '') for key in keys])`.  Total: a missing
field contributes the empty string. -/
def make_key (record : Record) (keys : List String) : String :=
  pyJoin "-" (keys.map (fun k => (Dict.get? record k).getD ""))

/-- Modelled from the spec: the Key Builder "looks up each named field in
order, substituting empty text when absent, and joins the resulting values
with a literal `-` separator".  Written as a direct recursion, to be
compared with the implementation `make_key`. -/
def makeKeySpec (record : Record) : List String → String
  | [] => ""
  | [k] => (Dict.get? record k).getD ""
  | k :: ks => (Dict.get? record k).getD "" ++ "-" ++ makeKeySpec record ks

end NormalizeTeX

/-! ## `pybibtools.py`: the `Bibliography` class -/

/-- The exceptions raised by the library.  `TypeError` for a non-list
argument cannot arise in this typed embedding and is omitted. -/
inductive BibError : Type
  | structureError : BibError
  | duplicateIds : BibError
  | duplicateKeys (dups : List String) : BibError
  | missingField (field : String) : BibError
deriving DecidableEq

/-- Python `str(l)` for a list of strings: `['a', 'b']`. -/
def reprStrList (l : List String) : String :=
  "[" ++ pyJoin ", " (l.map (fun s => "\x27" ++ s ++ "\x27")) ++ "]"

/-- The exception messages, as built by the source. -/
def BibError.message : BibError → String
  | .structureError =>
      "There is something wrong with your data. Either one of your " ++
      "entries is not a dictionary or does not contain both keys " ++
      "\"ENTRYTYPE\" and \"ID\"."
  | .duplicateIds => "Your bibliography contains duplicate ID-s."
  | .duplicateKeys dups =>
      "The following merge keys are duplicates: " ++ reprStrList dups
  | .missingField f => "\x27" ++ f ++ "\x27"

namespace Bibliography

/-- `Bibliography._test_entry`: the entry has both mandatory fields.
(The `isinstance(entry, dict)` part is enforced by the embedding's types.) -/
def test_entry (entry : Record) : Bool :=
  Dict.hasKey entry "ENTRYTYPE" && Dict.hasKey entry "ID"

/-- The `ID` values of the records, `[e['ID'] for e in data]`. -/
def idsOf (data : List Record) : List String :=
  data.map (fun e => (Dict.get? e "ID").getD "")

/-- The `data` property setter: validates the entries, then checks
`len(ids) > len(set(ids))`; stores the list on success. -/
def setData (data : List Record) : Except BibError (List Record) :=
  if ¬ (data.all test_entry) then .error .structureError
  else
    let ids := idsOf data
    if ids.dedup.length < ids.length then .error .duplicateIds
    else .ok data

/-- `Bibliography.MERGEKEY`. -/
def MERGEKEY : String := "KEY"

/-- `entry.update({key: func(entry)})` for a fallible field function:
on success insert the new field, on failure leave the record alone. -/
def applyF (name : String) (f : Record → Except BibError String) (r : Record) : Record :=
  match f r with
  | .ok v => Dict.insert r name v
  | .error _ => r

/-- `add_fields` for a single name/function pair: apply `func` to every
entry in order, storing the result in place.  An exception propagates
immediately, so entries before the failing one keep the new field and
later entries are untouched. -/
def addFieldOne (name : String) (f : Record → Except BibError String) :
    List Record → List Record × Option BibError
  | [] => ([], none)
  | r :: rs =>
    match f r with
    | .error e => (r :: rs, some e)
    | .ok v =>
      let rest := addFieldOne name f rs
      (Dict.insert r name v :: rest.1, rest.2)

/-- `Bibliography.add_fields(**kargs)`: outer loop over the requested
field names (Python keyword arguments preserve order). -/
def add_fields (fs : List (String × (Record → Except BibError String))) :
    List Record → List Record × Option BibError
  | data =>
    match fs with
    | [] => (data, none)
    | (n, f) :: rest =>
      match addFieldOne n f data with
      | (d, some e) => (d, some e)
      | (d, none) => add_fields rest d

/-- `Bibliography.del_fields(*fields)`: delete each named field from
every record that has it. -/
def del_fields (fields : List String) (data : List Record) : List Record :=
  data.map (fun e => fields.foldl Dict.erase e)

/-- `norm_author(record)` at the record level: `record['author']` raises a
missing-field error when the field is absent. -/
def norm_author (gn : String → Option String) (post : String → String)
    (r : Record) : Except BibError String :=
  match Dict.get? r "author" with
  | none => .error (.missingField "author")
  | some a => .ok (NormalizeTeX.norm_author_str gn post a)

/-- `norm_title(record)` at the record level. -/
def norm_title (post : String → String) (r : Record) : Except BibError String :=
  match Dict.get? r "title" with
  | none => .error (.missingField "title")
  | some t => .ok (NormalizeTeX.norm_title_str post t)

/-- `Bibliography.make_key(*keys)`: add the composite key under
`MERGEKEY` via `add_fields` (the key function is total, so this never
raises), then collect the key values and the list of duplicates; the
pair holds the mutated records and the raised exception, if any.  The
records keep the key field even when the exception is raised. -/
def make_key (data : List Record) (keys : List String) :
    List Record × Option BibError :=
  let step := add_fields [(MERGEKEY, fun r => .ok (NormalizeTeX.make_key r keys))] data
  let d := step.1
  let ks := d.map (fun e => (Dict.get? e MERGEKEY).getD "")
  let dups := ks.filter (fun k => ks.count k > 1)
  (d, if dups.isEmpty then none else some (.duplicateKeys dups))

/-- The merge key stored on a record, `e[MERGEKEY]`. -/
def keyOf (e : Record) : String :=
  (Dict.get? e MERGEKEY).getD ""

/-- The dict comprehension `{e[MERGEKEY]: e for e in bib}`. -/
def byKey (l : List Record) : List (String × Record) :=
  l.foldl (fun d e => Dict.insert d (keyOf e) e) []

/-- The body of `merge` between the two `make_key` calls and the final
validation: build the key dicts, deep-copy the left one into `joined`,
overlay the right dict when `union` is set, and run the update loop.
The loop's `entry.update(other…); entry.update(self…)` mutates each
entry in place, so it is a map over the pairs of `joined`. -/
def mergeCore (a1 b1 : List Record) (union : Bool) : List (String × Record) :=
  let S := byKey a1
  let O := byKey b1
  let joined := if union then Dict.update S O else S
  joined.map (fun p =>
    let e1 := match Dict.get? O p.1 with
              | some o => Dict.update p.2 o
              | none => p.2
    let e2 := match Dict.get? S p.1 with
              | some s => Dict.update e1 s
              | none => e1
    (p.1, e2))

/-- The three collections after a successful `merge` call.  `result` is
the returned bibliography; since `merge` mutates its arguments
(`make_key` adds the `KEY` field in place, and the `union` branch lets
the result alias records of the right argument, which
`bib.del_fields(MERGEKEY)` then strips), `aAfter`/`bAfter` record the
post-call states of the receiver's and the argument's data. -/
structure MergeOut : Type where
  result : List Record
  aAfter : List Record
  bAfter : List Record
deriving DecidableEq

/-- The post-call state of the right argument's records.

Aliasing analysis: `joined = copy.deepcopy(self_by_key)` copies the left
records, but `joined.update(other_by_key)` (union case) installs the
right dict's record *objects*; for an overlapping key the loop then
writes the left record's fields into that right record, and for any key
of the right side present in `joined` the final
`bib.del_fields(MERGEKEY)` deletes `KEY` from it.  Keys of the right
side not in `joined` (i.e. `union = False`) keep the `KEY` field.  The
left side's records always keep the `KEY` field. -/
def bAfterOf (a1 b1 : List Record) (union : Bool) : List Record :=
  if union then
    b1.map (fun e =>
      if Dict.hasKey (byKey a1) (keyOf e) then
        Dict.erase
          (Dict.update e ((Dict.get? (byKey a1) (keyOf e)).getD []))
          MERGEKEY
      else Dict.erase e MERGEKEY)
  else b1

/-- The tail of `merge` after both `make_key` calls succeeded:
`Bibliography(list(joined.values()))` (which validates) followed by
`bib.del_fields(MERGEKEY)`. -/
def mergeTail (a1 b1 : List Record) (union : Bool) : Except BibError MergeOut :=
  let joined := mergeCore a1 b1 union
  match setData (Dict.values joined) with
  | .error e => .error e
  | .ok validated =>
    .ok ⟨del_fields [MERGEKEY] validated, a1, bAfterOf a1 b1 union⟩

/-- `Bibliography.merge(other, *keys, union=union)`: run `make_key` on
both sides (each may raise), then the join/update loop, validation of
the result, and the final `del_fields(MERGEKEY)` on the result. -/
def merge (aData bData : List Record) (keys : List String) (union : Bool) :
    Except BibError MergeOut :=
  match make_key aData keys with
  | (_, some e) => .error e
  | (a1, none) =>
    match make_key bData keys with
    | (_, some e) => .error e
    | (b1, none) => mergeTail a1 b1 union

/-- `Bibliography.union(other) = self.merge(other, 'ID', union=True)`. -/
def union (aData bData : List Record) : Except BibError MergeOut :=
  merge aData bData ["ID"] true

/-- The records after `make_key`: every record gets the composite key
stored under `MERGEKEY`. -/
def withKeys (keys : List String) (data : List Record) : List Record :=
  data.map (fun e => Dict.insert e MERGEKEY (NormalizeTeX.make_key e keys))

/-- The composite key values of the records, in order. -/
def keyList (keys : List String) (data : List Record) : List String :=
  data.map (fun e => NormalizeTeX.make_key e keys)

end Bibliography

/-- The supplement taken from the right dictionary: the matching right
record's value for a field, when the right side has the key at all. -/
def suppOf (b1 : List Record) (κ f : String) : Option String :=
  match Dict.get? (Bibliography.byKey b1) κ with
  | some rb1 => Dict.get? rb1 f
  | none => none

/-- The records are Python dicts, so their field names are pairwise
distinct.  Every record handled by the library satisfies this. -/
def wfRecords (data : List Record) : Prop :=
  ∀ r ∈ data, (Dict.keys r).Nodup

/-- A collection in a valid `Bibliography` state: well-formed dict
records, the mandatory fields present, and pairwise distinct `ID`s. -/
def validColl (data : List Record) : Prop :=
  wfRecords data ∧ data.all Bibliography.test_entry = true ∧
    (Bibliography.idsOf data).Nodup

/-- Whether `pat` occurs as a contiguous run inside the character list. -/
def subChars (pat : List Char) : List Char → Bool
  | [] => pat.isEmpty
  | c :: cs => pat.isPrefixOf (c :: cs) || subChars pat cs

/-- Whether `pat` occurs as a substring of `s` (Python `pat in s`). -/
def strContainsSub (s pat : String) : Bool :=
  subChars pat.toList s.toList

/-! ## Lemmas about the dictionary model -/

namespace Dict

variable {α : Type}

theorem get?_nil {k : String} : get? ([] : List (String × α)) k = none := rfl

theorem get?_cons {p : String × α} {d : List (String × α)} {k : String} :
    get? (p :: d) k = if p.1 = k then some p.2 else get? d k := rfl

theorem insert_cons {p : String × α} {d : List (String × α)} {k : String} {v : α} :
    insert (p :: d) k v = if p.1 = k then (k, v) :: d else p :: insert d k v := rfl

theorem get?_insert_self (d : List (String × α)) (k : String) (v : α) :
    get? (insert d k v) k = some v := by
  induction d with
  | nil => simp [insert, get?]
  | cons p rest ih =>
    rw [insert_cons]
    by_cases h : p.1 = k
    · simp [h, get?_cons]
    · simp [h, get?_cons, ih]

theorem get?_insert_ne (d : List (String × α)) {k k' : String} (v : α) (h : k' ≠ k) :
    get? (insert d k v) k' = get? d k' := by
  induction d with
  | nil =>
    simp only [insert, get?_cons, get?_nil]
    rw [if_neg fun hk => h hk.symm]
  | cons p rest ih =>
    rw [insert_cons]
    by_cases hp : p.1 = k
    · subst hp
      rw [if_pos rfl, get?_cons, get?_cons, if_neg fun hk => h hk.symm,
        if_neg fun hk => h hk.symm]
    · rw [if_neg hp, get?_cons, get?_cons]
      by_cases hp' : p.1 = k'
      · simp [hp']
      · simp [hp', ih]

theorem mem_keys_of_get?_isSome {d : List (String × α)} {k : String}
    (h : (get? d k).isSome) : k ∈ keys d := by
  induction d with
  | nil => simp [get?] at h
  | cons p rest ih =>
    rw [get?_cons] at h
    by_cases hp : p.1 = k
    · subst hp; simp [keys]
    · simp [hp] at h
      simpa [keys] using Or.inr (by simpa [keys] using ih h)

theorem get?_eq_none_of_not_mem {d : List (String × α)} {k : String}
    (h : k ∉ keys d) : get? d k = none := by
  cases hg : get? d k with
  | none => rfl
  | some v => exact absurd (mem_keys_of_get?_isSome (by simp [hg])) h

theorem hasKey_iff_mem_keys {d : List (String × α)} {k : String} :
    hasKey d k = true ↔ k ∈ keys d := by
  constructor
  · exact fun h => mem_keys_of_get?_isSome (by simpa [hasKey] using h)
  · intro h
    induction d with
    | nil => simp [keys] at h
    | cons p rest ih =>
      simp [keys] at h
      rcases h with h | h
      · simp [hasKey, get?_cons, h]
      · by_cases hp : p.1 = k
        · simp [hasKey, get?_cons, hp]
        · simpa [hasKey, get?_cons, hp] using ih (by simpa [keys] using h)

theorem keys_insert_of_not_hasKey {d : List (String × α)} {k : String} (v : α)
    (h : ¬ hasKey d k = true) : keys (insert d k v) = keys d ++ [k] := by
  induction d with
  | nil => simp [insert, keys]
  | cons p rest ih =>
    rw [insert_cons]
    by_cases hp : p.1 = k
    · exact absurd (by simp [hasKey, get?_cons, hp]) h
    · have h' : ¬ hasKey rest k = true := by
        intro hr
        exact h (by simpa [hasKey, get?_cons, hp] using hr)
      rw [if_neg hp]
      show p.1 :: keys (insert rest k v) = (p.1 :: keys rest) ++ [k]
      rw [ih h', List.cons_append]

theorem keys_insert_of_hasKey {d : List (String × α)} {k : String} (v : α)
    (h : hasKey d k = true) : keys (insert d k v) = keys d := by
  induction d with
  | nil => simp [hasKey, get?] at h
  | cons p rest ih =>
    rw [insert_cons]
    by_cases hp : p.1 = k
    · rw [if_pos hp]
      show k :: keys rest = p.1 :: keys rest
      rw [hp]
    · have h' : hasKey rest k = true := by
        simpa [hasKey, get?_cons, hp] using h
      rw [if_neg hp]
      show p.1 :: keys (insert rest k v) = p.1 :: keys rest
      rw [ih h']

theorem insert_of_not_hasKey {d : List (String × α)} {k : String} (v : α)
    (h : ¬ hasKey d k = true) : insert d k v = d ++ [(k, v)] := by
  induction d with
  | nil => simp [insert]
  | cons p rest ih =>
    rw [insert_cons]
    by_cases hp : p.1 = k
    · exact absurd (by simp [hasKey, get?_cons, hp]) h
    · have h' : ¬ hasKey rest k = true := by
        intro hr
        exact h (by simpa [hasKey, get?_cons, hp] using hr)
      simp [hp, ih h']

theorem nodup_keys_insert {d : List (String × α)} {k : String} (v : α)
    (h : (keys d).Nodup) : (keys (insert d k v)).Nodup := by
  by_cases hk : hasKey d k = true
  · rwa [keys_insert_of_hasKey _ hk]
  · rw [keys_insert_of_not_hasKey _ hk]
    refine List.Nodup.append h (by simp) ?_
    intro x hx hx'
    simp at hx'
    subst hx'
    exact hk (hasKey_iff_mem_keys.mpr hx)

theorem erase_insert_of_not_hasKey {d : List (String × α)} {k : String} (v : α)
    (h : ¬ hasKey d k = true) (hnd : ∀ p ∈ d, p.1 ≠ k) :
    erase (insert d k v) k = d := by
  rw [insert_of_not_hasKey v h, erase, List.filter_append]
  simp only [List.filter_cons]
  simp only [decide_not]
  rw [List.filter_eq_self.mpr]
  · simp
  · intro p hp
    simpa using hnd p hp

theorem get?_erase_ne (d : List (String × α)) {k k' : String} (h : k' ≠ k) :
    get? (erase d k) k' = get? d k' := by
  induction d with
  | nil => simp [erase, get?]
  | cons p rest ih =>
    by_cases hp : p.1 = k
    · have h1 : erase (p :: rest) k = erase rest k := by
        simp [erase, List.filter_cons, hp]
      rw [h1, ih, get?_cons, if_neg]
      rw [hp]
      exact fun hk => h hk.symm
    · have h1 : erase (p :: rest) k = p :: erase rest k := by
        simp [erase, List.filter_cons, hp]
      rw [h1, get?_cons, get?_cons]
      by_cases hp' : p.1 = k'
      · simp [hp']
      · simp [hp', ih]

theorem insert_same {d : List (String × α)} {k : String} {v : α}
    (h : get? d k = some v) : insert d k v = d := by
  induction d with
  | nil => simp [get?] at h
  | cons p rest ih =>
    rw [get?_cons] at h
    rw [insert_cons]
    by_cases hp : p.1 = k
    · simp [hp] at h
      rw [if_pos hp, ← h, ← hp]
    · simp [hp] at h
      simp [hp, ih h]

theorem nodup_keys_cons {q : String × α} {rest : List (String × α)}
    (h : (keys (q :: rest)).Nodup) : q.1 ∉ keys rest ∧ (keys rest).Nodup := by
  have hk : keys (q :: rest) = q.1 :: keys rest := rfl
  rw [hk, List.nodup_cons] at h
  exact h

theorem get?_eq_of_mem_nodup {d : List (String × α)} {p : String × α} :
    (keys d).Nodup → p ∈ d → get? d p.1 = some p.2 := by
  induction d with
  | nil => intro _ hm; simp at hm
  | cons q rest ih =>
    intro hnd hm
    have hnd' := nodup_keys_cons hnd
    rcases List.mem_cons.mp hm with hm | hm
    · subst hm; rw [get?_cons, if_pos rfl]
    · rw [get?_cons, if_neg, ih hnd'.2 hm]
      intro hq
      exact hnd'.1 (by rw [hq]; exact List.mem_map_of_mem Prod.fst hm)

theorem update_of_all_same {d e : List (String × α)}
    (h : ∀ p ∈ e, get? d p.1 = some p.2) : update d e = d := by
  induction e generalizing d with
  | nil => rfl
  | cons p rest ih =>
    have h1 : insert d p.1 p.2 = d := insert_same (h p (by simp))
    show update (insert d p.1 p.2) rest = d
    rw [h1]
    exact ih fun q hq => h q (by simp [hq])

theorem update_self {d : List (String × α)} (h : (keys d).Nodup) : update d d = d :=
  update_of_all_same fun p hp => get?_eq_of_mem_nodup h hp

theorem fieldPrec_some {α : Type} (v : α) (y : Option α) :
    fieldPrec (some v) y = some v := rfl

theorem fieldPrec_none {α : Type} (y : Option α) :
    fieldPrec none y = y := rfl

theorem fieldPrec_none_right {α : Type} (x : Option α) :
    fieldPrec x none = x := by
  cases x <;> rfl

theorem fieldPrec_absorb {α : Type} (x y : Option α) :
    fieldPrec x (fieldPrec y x) = fieldPrec x y := by
  cases x <;> cases y <;> rfl

theorem get?_update {d e : List (String × α)} {k : String}
    (he : (keys e).Nodup) :
    get? (update d e) k = fieldPrec (get? e k) (get? d k) := by
  induction e generalizing d with
  | nil => simp [update, get?, fieldPrec]
  | cons p rest ih =>
    have he' := nodup_keys_cons he
    have step : update d (p :: rest) = update (insert d p.1 p.2) rest := rfl
    rw [step, ih he'.2]
    cases hr : get? rest k with
    | some v =>
      have hk : k ∈ keys rest := mem_keys_of_get?_isSome (by simp [hr])
      have hp : p.1 ≠ k := fun h' => he'.1 (by rw [h']; exact hk)
      rw [fieldPrec_some, get?_cons, if_neg hp, hr, fieldPrec_some]
    | none =>
      rw [fieldPrec_none]
      by_cases hp : p.1 = k
      · subst hp
        rw [get?_insert_self, get?_cons, if_pos rfl, fieldPrec_some]
      · rw [get?_insert_ne _ _ fun h' => hp h'.symm, get?_cons, if_neg hp, hr,
          fieldPrec_none]

theorem mem_of_get?_eq_some {d : List (String × α)} {k : String} {v : α}
    (h : get? d k = some v) : (k, v) ∈ d := by
  induction d with
  | nil => simp [get?] at h
  | cons p rest ih =>
    rw [get?_cons] at h
    by_cases hp : p.1 = k
    · simp [hp] at h
      rw [← hp, ← h]
      exact List.mem_cons_self _ _
    · simp [hp] at h
      exact List.mem_cons_of_mem _ (ih h)

theorem hasKey_insert_iff {d : List (String × α)} {k x : String} {v : α} :
    hasKey (insert d k v) x = true ↔ x = k ∨ hasKey d x = true := by
  unfold hasKey
  by_cases hx : x = k
  · subst hx
    simp [get?_insert_self]
  · rw [get?_insert_ne _ _ hx]
    simp [hx]

theorem insert_eq_replace {d : List (String × α)} {k : String} {v : α}
    (hnd : (keys d).Nodup) (hk : hasKey d k = true) :
    insert d k v = d.map (fun p => if p.1 = k then (k, v) else p) := by
  induction d with
  | nil => simp [hasKey, get?] at hk
  | cons p rest ih =>
    have hnd' := nodup_keys_cons hnd
    rw [insert_cons]
    by_cases hp : p.1 = k
    · rw [if_pos hp]
      simp only [List.map_cons, if_pos hp]
      congr 1
      have : ∀ q ∈ rest, (if q.1 = k then (k, v) else q) = q := by
        intro q hq
        rw [if_neg]
        intro hq1
        exact hnd'.1 (by rw [hp, ← hq1]; exact List.mem_map_of_mem Prod.fst hq)
      rw [List.map_congr_left this]
      simp
    · have hk' : hasKey rest k = true := by
        unfold hasKey at hk ⊢
        rw [get?_cons, if_neg hp] at hk
        exact hk
      rw [if_neg hp]
      simp only [List.map_cons, if_neg hp]
      rw [ih hnd'.2 hk']

theorem get?_append {d e : List (String × α)} {k : String} :
    get? (d ++ e) k = fieldPrec (get? d k) (get? e k) := by
  induction d with
  | nil => simp [get?, fieldPrec]
  | cons p rest ih =>
    rw [List.cons_append, get?_cons, get?_cons]
    by_cases hp : p.1 = k
    · rw [if_pos hp, if_pos hp, fieldPrec_some]
    · rw [if_neg hp, if_neg hp, ih]

theorem hasKey_of_mem {d : List (String × α)} {p : String × α} (h : p ∈ d) :
    hasKey d p.1 = true := by
  induction d with
  | nil => simp at h
  | cons q rest ih =>
    rcases List.mem_cons.mp h with h | h
    · subst h
      simp [hasKey, get?_cons]
    · by_cases hq : q.1 = p.1
      · simp [hasKey, get?_cons, hq]
      · simpa [hasKey, get?_cons, hq] using ih h

theorem get?_eq_none_of_hasKey_false {d : List (String × α)} {k : String}
    (h : hasKey d k = false) : get? d k = none := by
  unfold hasKey at h
  exact Option.not_isSome_iff_eq_none.mp (by simp [h])

theorem fst_ne_of_hasKey_false {d : List (String × α)} {k : String}
    (h : hasKey d k = false) : ∀ p ∈ d, p.1 ≠ k := by
  intro p hp hk
  rw [← hk] at h
  rw [hasKey_of_mem hp] at h
  simp at h

theorem get?_append_left {d e : List (String × α)} {k : String} {v : α}
    (h : get? d k = some v) : get? (d ++ e) k = some v := by
  rw [get?_append, h, fieldPrec_some]

theorem get?_append_right {d e : List (String × α)} {k : String}
    (h : get? d k = none) : get? (d ++ e) k = get? e k := by
  rw [get?_append, h, fieldPrec_none]

theorem update_fresh {d e : List (String × α)} (he : (keys e).Nodup)
    (hdisj : ∀ k ∈ keys e, hasKey d k = false) : update d e = d ++ e := by
  induction e generalizing d with
  | nil => simp [update]
  | cons q e' ih =>
    have he' := nodup_keys_cons he
    have step : update d (q :: e') = update (insert d q.1 q.2) e' := rfl
    have hq : hasKey d q.1 = false := by
      have := hdisj q.1 (by exact List.mem_cons_self _ _)
      exact this
    rw [step, insert_of_not_hasKey _ (by simp [hq])]
    have : update (d ++ [(q.1, q.2)]) e' = (d ++ [(q.1, q.2)]) ++ e' := by
      apply ih he'.2
      intro k hk
      have h1 : hasKey d k = false := hdisj k (List.mem_cons_of_mem _ hk)
      have h2 : k ≠ q.1 := fun h => he'.1 (h ▸ hk)
      have h3 : get? [(q.1, q.2)] k = (none : Option α) := by
        rw [get?_cons, if_neg fun h => h2 h.symm]
        rfl
      unfold hasKey
      rw [get?_append_right (get?_eq_none_of_hasKey_false h1), h3]
      rfl
    rw [this, List.append_assoc]
    rfl

theorem keys_update {d e : List (String × α)} (he : (keys e).Nodup) :
    keys (update d e) = keys d ++ (keys e).filter (fun k => ! hasKey d k) := by
  induction e generalizing d with
  | nil =>
    show keys d = keys d ++ List.filter _ []
    rw [List.filter_nil, List.append_nil]
  | cons q e' ih =>
    have he' := nodup_keys_cons he
    have step : update d (q :: e') = update (insert d q.1 q.2) e' := rfl
    rw [step, ih he'.2]
    have hfilt : (keys e').filter (fun k => ! hasKey (insert d q.1 q.2) k)
        = (keys e').filter (fun k => ! hasKey d k) := by
      apply List.filter_congr
      intro k hk
      have h2 : ¬ k = q.1 := fun h => he'.1 (h ▸ hk)
      by_cases hd : hasKey d k = true
      · simp [hd, hasKey_insert_iff.mpr (Or.inr hd)]
      · have : ¬ hasKey (insert d q.1 q.2) k = true := by
          intro hc
          rcases hasKey_insert_iff.mp hc with hc | hc
          · exact h2 hc
          · exact hd hc
        simp only [Bool.not_eq_true] at hd this
        rw [hd, this]
    rw [hfilt]
    show keys (insert d q.1 q.2) ++ _ = keys d ++ (q.1 :: keys e').filter (fun k => ! hasKey d k)
    by_cases hq : hasKey d q.1 = true
    · rw [keys_insert_of_hasKey _ hq, List.filter_cons]
      simp [hq]
    · rw [keys_insert_of_not_hasKey _ hq, List.filter_cons]
      have : ¬ hasKey d q.1 = true := hq
      simp only [Bool.not_eq_true] at this
      simp [this, List.append_assoc]

theorem nodup_keys_update {d e : List (String × α)}
    (hd : (keys d).Nodup) (he : (keys e).Nodup) : (keys (update d e)).Nodup := by
  rw [keys_update he]
  refine List.Nodup.append hd (he.filter _) ?_
  intro x hx hx'
  have := List.of_mem_filter hx'
  rw [hasKey_iff_mem_keys.mpr hx] at this
  simp at this

theorem pair_mem_update {d e : List (String × α)} {p : String × α}
    (hd : (keys d).Nodup) (he : (keys e).Nodup) (hm : p ∈ update d e) :
    p ∈ e ∨ (p ∈ d ∧ hasKey e p.1 = false) := by
  have hnd : (keys (update d e)).Nodup := nodup_keys_update hd he
  have hg := get?_eq_of_mem_nodup hnd hm
  rw [get?_update he] at hg
  cases hge : get? e p.1 with
  | some v =>
    rw [hge, fieldPrec_some] at hg
    have hv : v = p.2 := by simpa using hg
    left
    have hmem := mem_of_get?_eq_some hge
    rw [hv] at hmem
    exact hmem
  | none =>
    rw [hge, fieldPrec_none] at hg
    right
    refine ⟨mem_of_get?_eq_some hg, ?_⟩
    unfold hasKey
    rw [hge]
    rfl

end Dict

/-! ## Lemmas about the `Bibliography` operations -/

namespace Bibliography

theorem addFieldOne_ok (n : String) (g : Record → String) (data : List Record) :
    addFieldOne n (fun r => .ok (g r)) data
      = (data.map (fun r => Dict.insert r n (g r)), none) := by
  induction data with
  | nil => rfl
  | cons r rs ih => simp [addFieldOne, ih]

theorem add_fields_single (n : String) (f : Record → Except BibError String)
    (data : List Record) :
    add_fields [(n, f)] data =
      (match addFieldOne n f data with
       | (d, some e) => (d, some e)
       | (d, none) => (d, none)) := by
  have h : add_fields [(n, f)] data =
      (match addFieldOne n f data with
       | (d, some e) => (d, some e)
       | (d, none) => add_fields [] d) := rfl
  rw [h]
  cases addFieldOne n f data with
  | mk d e? => cases e? <;> rfl

theorem add_fields_single_ok (n : String) (g : Record → String)
    (data : List Record) :
    add_fields [(n, fun r => .ok (g r))] data
      = (data.map (fun r => Dict.insert r n (g r)), none) := by
  rw [add_fields_single, addFieldOne_ok]

theorem keyOf_insert (e : Record) (v : String) :
    keyOf (Dict.insert e MERGEKEY v) = v := by
  unfold keyOf
  rw [Dict.get?_insert_self]
  rfl

theorem withKeys_keyOf (keys : List String) (data : List Record) :
    (withKeys keys data).map keyOf = keyList keys data := by
  unfold withKeys keyList
  rw [List.map_map]
  apply List.map_congr_left
  intro e _
  exact keyOf_insert e _

theorem withKeys_read (keys : List String) (data : List Record) :
    (withKeys keys data).map (fun e => (Dict.get? e MERGEKEY).getD "")
      = keyList keys data := by
  unfold withKeys keyList
  rw [List.map_map]
  apply List.map_congr_left
  intro e _
  simp [Dict.get?_insert_self]

theorem make_key_eq (data : List Record) (keys : List String) :
    make_key data keys =
      (withKeys keys data,
       if ((keyList keys data).filter (fun k => (keyList keys data).count k > 1)).isEmpty
       then none
       else some (.duplicateKeys
         ((keyList keys data).filter (fun k => (keyList keys data).count k > 1)))) := by
  unfold make_key
  rw [show add_fields [(MERGEKEY, fun r => Except.ok (NormalizeTeX.make_key r keys))] data
      = (withKeys keys data, none) from add_fields_single_ok MERGEKEY _ data]
  simp only []
  rw [withKeys_read]

theorem make_key_fst (data : List Record) (keys : List String) :
    (make_key data keys).1 = withKeys keys data := by
  rw [make_key_eq]

theorem nodup_filter_dups_eq_nil {l : List String} (h : l.Nodup) :
    l.filter (fun k => l.count k > 1) = [] := by
  rw [List.filter_eq_nil]
  intro k hk
  have := List.nodup_iff_count_le_one.mp h k
  simp
  omega

theorem filter_dups_ne_nil {l : List String} (h : ¬ l.Nodup) :
    l.filter (fun k => l.count k > 1) ≠ [] := by
  intro hc
  apply h
  rw [List.nodup_iff_count_le_one]
  intro k
  by_contra hgt
  push_neg at hgt
  have hk : k ∈ l := by
    rw [← List.count_pos_iff_mem]
    omega
  have : k ∈ l.filter (fun k => l.count k > 1) := by
    rw [List.mem_filter]
    exact ⟨hk, by simp; omega⟩
  rw [hc] at this
  simp at this

theorem make_key_snd_none_iff (data : List Record) (keys : List String) :
    (make_key data keys).2 = none ↔ (keyList keys data).Nodup := by
  rw [make_key_eq]
  simp only []
  constructor
  · intro h
    by_contra hnd
    rw [if_neg (by simpa [List.isEmpty_iff] using filter_dups_ne_nil hnd)] at h
    exact Option.noConfusion h
  · intro hnd
    rw [if_pos (by simp [List.isEmpty_iff, nodup_filter_dups_eq_nil hnd])]

theorem setData_ok {data : List Record} (h1 : data.all test_entry = true)
    (h2 : (idsOf data).Nodup) : setData data = .ok data := by
  unfold setData
  rw [if_neg (by simp [h1])]
  simp only []
  rw [if_neg]
  rw [List.dedup_eq_self.mpr h2]
  omega

theorem setData_dup {data : List Record} (h1 : data.all test_entry = true)
    (h2 : ¬ (idsOf data).Nodup) : setData data = .error .duplicateIds := by
  unfold setData
  rw [if_neg (by simp [h1])]
  simp only []
  rw [if_pos]
  have hle : (idsOf data).dedup.length ≤ (idsOf data).length :=
    (List.dedup_sublist _).length_le
  rcases Nat.lt_or_ge (idsOf data).dedup.length (idsOf data).length with h | h
  · exact h
  · exfalso
    have heq : (idsOf data).dedup = idsOf data :=
      (List.dedup_sublist _).eq_of_length (Nat.le_antisymm hle h)
    exact h2 (heq ▸ (idsOf data).nodup_dedup)

theorem setData_ok_inv {data v : List Record} (h : setData data = .ok v) :
    v = data ∧ data.all test_entry = true ∧ (idsOf data).Nodup := by
  unfold setData at h
  by_cases h1 : data.all test_entry = true
  · rw [if_neg (by simp [h1])] at h
    simp only [] at h
    by_cases h2 : (idsOf data).Nodup
    · rw [if_neg (by rw [List.dedup_eq_self.mpr h2]; omega)] at h
      exact ⟨(Except.ok.inj h).symm, h1, h2⟩
    · exfalso
      have := setData_dup h1 h2
      unfold setData at this
      rw [if_neg (by simp [h1])] at this
      simp only [] at this
      rw [this] at h
      exact Except.noConfusion h
  · rw [if_pos (by simpa using h1)] at h
    exact absurd h (by simp)

theorem byKey_aux (l : List Record) (acc : List (String × Record))
    (hnd : (l.map keyOf).Nodup)
    (hfresh : ∀ e ∈ l, Dict.hasKey acc (keyOf e) = false) :
    l.foldl (fun d e => Dict.insert d (keyOf e) e) acc
      = acc ++ l.map (fun e => (keyOf e, e)) := by
  induction l generalizing acc with
  | nil => simp
  | cons e l' ih =>
    have hnd0 : e ∈ (e :: l') := List.mem_cons_self _ _
    have h1 : Dict.insert acc (keyOf e) e = acc ++ [(keyOf e, e)] :=
      Dict.insert_of_not_hasKey _ (by simp [hfresh e hnd0])
    have hndl : (l'.map keyOf).Nodup := (List.nodup_cons.mp hnd).2
    have hke : keyOf e ∉ l'.map keyOf := (List.nodup_cons.mp hnd).1
    have hfresh' : ∀ e' ∈ l', Dict.hasKey (acc ++ [(keyOf e, e)]) (keyOf e') = false := by
      intro e' he'
      have h2 : Dict.hasKey acc (keyOf e') = false :=
        hfresh e' (List.mem_cons_of_mem _ he')
      have h3 : keyOf e' ≠ keyOf e := by
        intro hc
        exact hke (hc ▸ List.mem_map_of_mem keyOf he')
      unfold Dict.hasKey
      rw [Dict.get?_append_right (Dict.get?_eq_none_of_hasKey_false h2),
        Dict.get?_cons, if_neg fun h => h3 h.symm]
      rfl
    show List.foldl _ (Dict.insert acc (keyOf e) e) l' = _
    rw [h1, ih (acc ++ [(keyOf e, e)]) hndl hfresh']
    simp

theorem byKey_eq {l : List Record} (hnd : (l.map keyOf).Nodup) :
    byKey l = l.map (fun e => (keyOf e, e)) := by
  unfold byKey
  rw [byKey_aux l [] hnd (fun e _ => rfl)]
  rfl

theorem keys_byKey {l : List Record} (hnd : (l.map keyOf).Nodup) :
    Dict.keys (byKey l) = l.map keyOf := by
  rw [byKey_eq hnd]
  unfold Dict.keys
  rw [List.map_map]
  rfl

end Bibliography

namespace Bibliography

theorem make_key_of_nodup (data : List Record) (keys : List String)
    (h : (keyList keys data).Nodup) :
    make_key data keys = (withKeys keys data, none) := by
  rw [make_key_eq, nodup_filter_dups_eq_nil h]
  rfl

theorem make_key_of_dup (data : List Record) (keys : List String)
    (h : ¬ (keyList keys data).Nodup) :
    make_key data keys =
      (withKeys keys data,
       some (.duplicateKeys
         ((keyList keys data).filter (fun k => (keyList keys data).count k > 1)))) := by
  rw [make_key_eq, if_neg fun hc => filter_dups_ne_nil h (List.isEmpty_iff.mp hc)]

theorem merge_of_nodup {aData bData : List Record} {keys : List String} {u : Bool}
    (hka : (keyList keys aData).Nodup) (hkb : (keyList keys bData).Nodup) :
    merge aData bData keys u = mergeTail (withKeys keys aData) (withKeys keys bData) u := by
  unfold merge
  rw [make_key_of_nodup _ _ hka, make_key_of_nodup _ _ hkb]

theorem merge_ok_nodup_left {aData bData : List Record} {keys : List String}
    {u : Bool} {out : MergeOut} (hok : merge aData bData keys u = .ok out) :
    (keyList keys aData).Nodup := by
  by_contra h
  have hbad : merge aData bData keys u = .error
      (.duplicateKeys
        ((keyList keys aData).filter (fun k => (keyList keys aData).count k > 1))) := by
    unfold merge
    rw [make_key_of_dup _ _ h]
  rw [hbad] at hok
  exact Except.noConfusion hok

theorem merge_ok_nodup_right {aData bData : List Record} {keys : List String}
    {u : Bool} {out : MergeOut} (hok : merge aData bData keys u = .ok out) :
    (keyList keys bData).Nodup := by
  have hka := merge_ok_nodup_left hok
  by_contra h
  have hbad : merge aData bData keys u = .error
      (.duplicateKeys
        ((keyList keys bData).filter (fun k => (keyList keys bData).count k > 1))) := by
    unfold merge
    rw [make_key_of_nodup _ _ hka, make_key_of_dup _ _ h]
  rw [hbad] at hok
  exact Except.noConfusion hok

theorem del_fields_single (k : String) (data : List Record) :
    del_fields [k] data = data.map (fun e => Dict.erase e k) := rfl

theorem mergeTail_ok_inv {a1 b1 : List Record} {u : Bool} {out : MergeOut}
    (h : mergeTail a1 b1 u = .ok out) :
    setData (Dict.values (mergeCore a1 b1 u)) = .ok (Dict.values (mergeCore a1 b1 u)) ∧
    out = ⟨del_fields [MERGEKEY] (Dict.values (mergeCore a1 b1 u)), a1, bAfterOf a1 b1 u⟩ := by
  have hdef : mergeTail a1 b1 u =
      (match setData (Dict.values (mergeCore a1 b1 u)) with
       | .error e => .error e
       | .ok validated =>
         .ok ⟨del_fields [MERGEKEY] validated, a1, bAfterOf a1 b1 u⟩) := rfl
  rw [hdef] at h
  cases hs : setData (Dict.values (mergeCore a1 b1 u)) with
  | error e =>
    rw [hs] at h
    exact absurd h (by simp)
  | ok v =>
    rcases setData_ok_inv hs with ⟨hv, _, _⟩
    subst hv
    rw [hs] at h
    exact ⟨rfl, (Except.ok.inj h).symm⟩

theorem byKey_get? {l : List Record} (hn : (l.map keyOf).Nodup) {r : Record}
    (hr : r ∈ l) : Dict.get? (byKey l) (keyOf r) = some r := by
  have hm : (keyOf r, r) ∈ byKey l := by
    rw [byKey_eq hn]
    exact List.mem_map_of_mem _ hr
  have hk : (Dict.keys (byKey l)).Nodup := by
    rw [keys_byKey hn]
    exact hn
  exact Dict.get?_eq_of_mem_nodup hk hm

theorem byKey_mem_inv {l : List Record} {κ : String} {X : Record}
    (h : (κ, X) ∈ byKey l) (hn : (l.map keyOf).Nodup) :
    X ∈ l ∧ keyOf X = κ := by
  rw [byKey_eq hn] at h
  rcases List.mem_map.mp h with ⟨r, hr, heq⟩
  have h1 : keyOf r = κ := congrArg Prod.fst heq
  have h2 : r = X := congrArg Prod.snd heq
  subst h2
  exact ⟨hr, h1⟩

theorem nodup_keys_byKey {l : List Record} (hn : (l.map keyOf).Nodup) :
    (Dict.keys (byKey l)).Nodup := by
  rw [keys_byKey hn]
  exact hn

theorem mergeCore_eq (a1 b1 : List Record) (u : Bool) :
    mergeCore a1 b1 u =
      (if u then Dict.update (byKey a1) (byKey b1) else byKey a1).map (fun p =>
        let e1 := match Dict.get? (byKey b1) p.1 with
                  | some o => Dict.update p.2 o
                  | none => p.2
        let e2 := match Dict.get? (byKey a1) p.1 with
                  | some s => Dict.update e1 s
                  | none => e1
        (p.1, e2)) := rfl

theorem keys_mergeCore {a1 b1 : List Record} {u : Bool} :
    Dict.keys (mergeCore a1 b1 u)
      = Dict.keys (if u then Dict.update (byKey a1) (byKey b1) else byKey a1) := by
  rw [mergeCore_eq]
  unfold Dict.keys
  rw [List.map_map]
  rfl

theorem nodup_keys_mergeCore {a1 b1 : List Record} {u : Bool}
    (hna : (a1.map keyOf).Nodup) (hnb : (b1.map keyOf).Nodup) :
    (Dict.keys (mergeCore a1 b1 u)).Nodup := by
  rw [keys_mergeCore]
  cases u with
  | true =>
    rw [if_pos rfl]
    exact Dict.nodup_keys_update (nodup_keys_byKey hna) (nodup_keys_byKey hnb)
  | false =>
    rw [if_neg (by simp)]
    exact nodup_keys_byKey hna

end Bibliography

theorem suppOf_some {b1 : List Record} {κ : String} {rb1 : Record}
    (h : Dict.get? (Bibliography.byKey b1) κ = some rb1) (f : String) :
    suppOf b1 κ f = Dict.get? rb1 f := by
  unfold suppOf
  rw [h]

theorem suppOf_none {b1 : List Record} {κ : String}
    (h : Dict.get? (Bibliography.byKey b1) κ = none) (f : String) :
    suppOf b1 κ f = none := by
  unfold suppOf
  rw [h]

namespace Bibliography

theorem mergeCore_mem_phi {a1 b1 : List Record} {u : Bool} {q : String × Record}
    (hq : q ∈ (if u then Dict.update (byKey a1) (byKey b1) else byKey a1)) :
    (q.1,
      (match Dict.get? (byKey a1) q.1 with
       | some s => Dict.update (match Dict.get? (byKey b1) q.1 with
                                | some o => Dict.update q.2 o
                                | none => q.2) s
       | none => (match Dict.get? (byKey b1) q.1 with
                  | some o => Dict.update q.2 o
                  | none => q.2))) ∈ mergeCore a1 b1 u := by
  rw [mergeCore_eq]
  have := List.mem_map_of_mem (fun p =>
    (p.1,
      (match Dict.get? (byKey a1) p.1 with
       | some s => Dict.update (match Dict.get? (byKey b1) p.1 with
                                | some o => Dict.update p.2 o
                                | none => p.2) s
       | none => (match Dict.get? (byKey b1) p.1 with
                  | some o => Dict.update p.2 o
                  | none => p.2)))) hq
  exact this

theorem mergeCore_mem_inv {a1 b1 : List Record} {u : Bool} {p : String × Record}
    (hp : p ∈ mergeCore a1 b1 u) :
    ∃ q ∈ (if u then Dict.update (byKey a1) (byKey b1) else byKey a1),
      p = (q.1,
        (match Dict.get? (byKey a1) q.1 with
         | some s => Dict.update (match Dict.get? (byKey b1) q.1 with
                                  | some o => Dict.update q.2 o
                                  | none => q.2) s
         | none => (match Dict.get? (byKey b1) q.1 with
                    | some o => Dict.update q.2 o
                    | none => q.2))) := by
  rw [mergeCore_eq] at hp
  rcases List.mem_map.mp hp with ⟨q, hq, he⟩
  exact ⟨q, hq, he.symm⟩

theorem mergeCore_exists_key {a1 b1 : List Record} {u : Bool} {ra1 : Record}
    (hna : (a1.map keyOf).Nodup) (hnb : (b1.map keyOf).Nodup) (hma : ra1 ∈ a1) :
    ∃ M, (keyOf ra1, M) ∈ mergeCore a1 b1 u := by
  have hS : Dict.get? (byKey a1) (keyOf ra1) = some ra1 := byKey_get? hna hma
  have hj : ∃ X, Dict.get?
      (if u then Dict.update (byKey a1) (byKey b1) else byKey a1) (keyOf ra1)
        = some X := by
    cases u with
    | false =>
      rw [if_neg (by simp)]
      exact ⟨ra1, hS⟩
    | true =>
      rw [if_pos rfl, Dict.get?_update (nodup_keys_byKey hnb)]
      cases hO : Dict.get? (byKey b1) (keyOf ra1) with
      | some rb1 => exact ⟨rb1, Dict.fieldPrec_some _ _⟩
      | none => exact ⟨ra1, by rw [Dict.fieldPrec_none]; exact hS⟩
  rcases hj with ⟨X, hX⟩
  have hmem := Dict.mem_of_get?_eq_some hX
  exact ⟨_, mergeCore_mem_phi hmem⟩

theorem mergeCore_pair_cases {a1 b1 : List Record} {u : Bool}
    (hna : (a1.map keyOf).Nodup) (hnb : (b1.map keyOf).Nodup)
    (hra : ∀ r ∈ a1, (Dict.keys r).Nodup) (hrb : ∀ r ∈ b1, (Dict.keys r).Nodup)
    {p : String × Record} (hp : p ∈ mergeCore a1 b1 u) :
    (∃ ra1 ∈ a1, keyOf ra1 = p.1 ∧
      ∀ f, Dict.get? p.2 f = Dict.fieldPrec (Dict.get? ra1 f) (suppOf b1 p.1 f)) ∨
    (∃ rb1 ∈ b1, keyOf rb1 = p.1 ∧ Dict.hasKey (byKey a1) p.1 = false ∧ p.2 = rb1) := by
  rcases mergeCore_mem_inv hp with ⟨q, hq, hpe⟩
  have hP1 : p.1 = q.1 := by rw [hpe]
  have hEgen : p.2 =
      (match Dict.get? (byKey a1) q.1 with
       | some s => Dict.update (match Dict.get? (byKey b1) q.1 with
                                | some o => Dict.update q.2 o
                                | none => q.2) s
       | none => (match Dict.get? (byKey b1) q.1 with
                  | some o => Dict.update q.2 o
                  | none => q.2)) := by rw [hpe]
  cases u with
  | false =>
    rw [if_neg (by simp)] at hq
    have hqa := byKey_mem_inv (show ((q.1, q.2) : String × Record) ∈ byKey a1 from hq) hna
    have hS : Dict.get? (byKey a1) q.1 = some q.2 := by
      rw [← hqa.2]
      exact byKey_get? hna hqa.1
    left
    refine ⟨q.2, hqa.1, by rw [hP1]; exact hqa.2, ?_⟩
    intro f
    rw [hP1]
    cases hO : Dict.get? (byKey b1) q.1 with
    | none =>
      have hE : p.2 = Dict.update q.2 q.2 := by
        rw [hEgen, hS, hO]
      rw [hE, Dict.update_self (hra q.2 hqa.1), suppOf_none hO,
        Dict.fieldPrec_none_right]
    | some rb1 =>
      have hnb1 : (Dict.keys rb1).Nodup :=
        hrb rb1 (byKey_mem_inv (Dict.mem_of_get?_eq_some hO) hnb).1
      have hna1 : (Dict.keys q.2).Nodup := hra q.2 hqa.1
      have hE : p.2 = Dict.update (Dict.update q.2 rb1) q.2 := by
        rw [hEgen, hS, hO]
      rw [hE, Dict.get?_update hna1, Dict.get?_update hnb1, suppOf_some hO,
        Dict.fieldPrec_absorb]
  | true =>
    rw [if_pos rfl] at hq
    rcases Dict.pair_mem_update (nodup_keys_byKey hna) (nodup_keys_byKey hnb) hq with
      hqb | ⟨hqa, hfresh⟩
    · have hqb' := byKey_mem_inv (show ((q.1, q.2) : String × Record) ∈ byKey b1 from hqb) hnb
      have hO : Dict.get? (byKey b1) q.1 = some q.2 := by
        rw [← hqb'.2]
        exact byKey_get? hnb hqb'.1
      have hnq2 : (Dict.keys q.2).Nodup := hrb q.2 hqb'.1
      cases hS : Dict.get? (byKey a1) q.1 with
      | some ra1 =>
        have hram := byKey_mem_inv (Dict.mem_of_get?_eq_some hS) hna
        have hE : p.2 = Dict.update (Dict.update q.2 q.2) ra1 := by
          rw [hEgen, hS, hO]
        left
        refine ⟨ra1, hram.1, by rw [hP1]; exact hram.2, ?_⟩
        intro f
        rw [hP1, hE, Dict.update_self hnq2, Dict.get?_update (hra ra1 hram.1),
          suppOf_some hO]
      | none =>
        have hE : p.2 = Dict.update q.2 q.2 := by
          rw [hEgen, hS, hO]
        right
        refine ⟨q.2, hqb'.1, by rw [hP1]; exact hqb'.2, ?_, ?_⟩
        · rw [hP1]
          unfold Dict.hasKey
          rw [hS]
          rfl
        · rw [hE, Dict.update_self hnq2]
    · have hqa' := byKey_mem_inv (show ((q.1, q.2) : String × Record) ∈ byKey a1 from hqa) hna
      have hS : Dict.get? (byKey a1) q.1 = some q.2 := by
        rw [← hqa'.2]
        exact byKey_get? hna hqa'.1
      have hO : Dict.get? (byKey b1) q.1 = none :=
        Dict.get?_eq_none_of_hasKey_false hfresh
      have hE : p.2 = Dict.update q.2 q.2 := by
        rw [hEgen, hS, hO]
      left
      refine ⟨q.2, hqa'.1, by rw [hP1]; exact hqa'.2, ?_⟩
      intro f
      rw [hP1, hE, Dict.update_self (hra q.2 hqa'.1), suppOf_none hO,
        Dict.fieldPrec_none_right]

end Bibliography

/-! ## Substring lemmas for the error-message claims -/

theorem isPrefixOf_self_append (l t : List Char) : l.isPrefixOf (l ++ t) = true := by
  induction l with
  | nil => simp [List.isPrefixOf]
  | cons a as ih => simp [List.isPrefixOf, ih]

theorem subChars_self (pat l2 : List Char) : subChars pat (pat ++ l2) = true := by
  cases pat with
  | nil => cases l2 <;> simp [subChars, List.isPrefixOf]
  | cons p ps =>
    have h : (p :: ps) ++ l2 = p :: (ps ++ l2) := rfl
    rw [h]
    unfold subChars
    rw [← h, isPrefixOf_self_append]
    rfl

theorem subChars_append (l1 pat l2 : List Char) :
    subChars pat (l1 ++ (pat ++ l2)) = true := by
  induction l1 with
  | nil => simpa using subChars_self pat l2
  | cons c cs ih => simp [subChars, ih]

theorem toList_append (s t : String) : (s ++ t).toList = s.toList ++ t.toList :=
  String.data_append s t

theorem strContainsSub_append (A k B : String) :
    strContainsSub (A ++ k ++ B) k = true := by
  unfold strContainsSub
  have h : (A ++ k ++ B).toList = A.toList ++ (k.toList ++ B.toList) := by
    rw [toList_append, toList_append, List.append_assoc]
  rw [h]
  exact subChars_append _ _ _

theorem pyJoin_mem_split (sep : String) {l : List String} {x : String} (hx : x ∈ l) :
    ∃ s1 s2 : String, pyJoin sep l = s1 ++ x ++ s2 := by
  induction l with
  | nil => simp at hx
  | cons a rest ih =>
    rcases List.mem_cons.mp hx with h | h
    · subst h
      cases rest with
      | nil =>
        refine ⟨"", "", ?_⟩
        rw [String.append_empty, String.empty_append]
        rfl
      | cons b bs =>
        refine ⟨"", sep ++ pyJoin sep (b :: bs), ?_⟩
        rw [String.empty_append, ← String.append_assoc]
        rfl
    · rcases ih h with ⟨s1, s2, hs⟩
      cases rest with
      | nil => simp at h
      | cons b bs =>
        refine ⟨a ++ sep ++ s1, s2, ?_⟩
        have h0 : pyJoin sep (a :: b :: bs) = a ++ sep ++ pyJoin sep (b :: bs) := rfl
        rw [h0, hs, ← String.append_assoc, ← String.append_assoc]

theorem message_lists_duplicates {dups : List String} {k : String} (hk : k ∈ dups) :
    strContainsSub (BibError.message (.duplicateKeys dups)) k = true := by
  have hq : ("\x27" ++ k ++ "\x27" : String) ∈ dups.map (fun s => "\x27" ++ s ++ "\x27") :=
    List.mem_map_of_mem _ hk
  rcases pyJoin_mem_split ", " hq with ⟨s1, s2, hs⟩
  have hmsg : BibError.message (.duplicateKeys dups)
      = ("The following merge keys are duplicates: " ++ "[" ++ s1 ++ "\x27") ++ k
        ++ ("\x27" ++ s2 ++ "]") := by
    show "The following merge keys are duplicates: "
        ++ ("[" ++ pyJoin ", " (dups.map (fun s => "\x27" ++ s ++ "\x27")) ++ "]") = _
    rw [hs]
    simp [String.append_assoc]
    rw [← String.append_assoc]
    rfl
  rw [hmsg]
  exact strContainsSub_append _ _ _

/-! ## The claims -/

/-- C9: the Key Builder `make_key(record, keys...)` never fails (it is a
total function of the embedding) and returns exactly the record's values
for the named fields, looked up in the given order with the empty string
substituted for each absent field, joined with the literal `-` separator:
the implementation agrees with the spec-side recursion `makeKeySpec`. -/
theorem c9_key_builder_matches_spec (r : Record) (keys : List String) :
    NormalizeTeX.make_key r keys = NormalizeTeX.makeKeySpec r keys := by
  induction keys with
  | nil => rfl
  | cons k ks ih =>
    cases ks with
    | nil => rfl
    | cons k2 ks2 =>
      have h1 : NormalizeTeX.make_key r (k :: k2 :: ks2)
          = (Dict.get? r k).getD "" ++ "-" ++ NormalizeTeX.make_key r (k2 :: ks2) := rfl
      have h2 : NormalizeTeX.makeKeySpec r (k :: k2 :: ks2)
          = (Dict.get? r k).getD "" ++ "-" ++ NormalizeTeX.makeKeySpec r (k2 :: ks2) := rfl
      rw [h1, h2, ih]

/-- C3: `Bibliography.make_key` stores the composite key under the field
`KEY` on every record, and raises a duplicate-key error if and only if two
records receive equal key values; the error's payload is exactly the list
of repeated key values, its message mentions each of them, and the `KEY`
field is populated on every record even when it raises. -/
theorem c3_make_key_duplicates (data : List Record) (keys : List String) :
    (Bibliography.make_key data keys).1 = Bibliography.withKeys keys data ∧
    (∀ r ∈ (Bibliography.make_key data keys).1,
      (Dict.get? r Bibliography.MERGEKEY).isSome = true) ∧
    ((Bibliography.make_key data keys).2 ≠ none ↔
      ¬ (Bibliography.keyList keys data).Nodup) ∧
    (∀ e, (Bibliography.make_key data keys).2 = some e →
      ∃ dups, e = .duplicateKeys dups ∧
        (∀ k, k ∈ dups ↔ (Bibliography.keyList keys data).count k > 1) ∧
        (∀ k ∈ dups, strContainsSub (BibError.message e) k = true)) := by
  refine ⟨Bibliography.make_key_fst data keys, ?_, ?_, ?_⟩
  · intro r hr
    rw [Bibliography.make_key_fst] at hr
    unfold Bibliography.withKeys at hr
    rcases List.mem_map.mp hr with ⟨e, _, he⟩
    rw [← he, Dict.get?_insert_self]
    rfl
  · constructor
    · intro h hnd
      exact h ((Bibliography.make_key_snd_none_iff data keys).mpr hnd)
    · intro hnd hno
      exact hnd ((Bibliography.make_key_snd_none_iff data keys).mp hno)
  · intro e he
    rw [Bibliography.make_key_eq] at he
    by_cases hie : ((Bibliography.keyList keys data).filter
        (fun k => (Bibliography.keyList keys data).count k > 1)).isEmpty = true
    · rw [if_pos hie] at he
      exact absurd he (by simp)
    · rw [if_neg hie] at he
      have heq := Option.some.inj he
      refine ⟨(Bibliography.keyList keys data).filter
          (fun k => (Bibliography.keyList keys data).count k > 1), heq.symm, ?_, ?_⟩
      · intro k
        constructor
        · intro hk
          have := List.of_mem_filter hk
          simpa using this
        · intro hc
          refine List.mem_filter.mpr ⟨?_, by simpa using hc⟩
          rw [← List.count_pos_iff]
          omega
      · intro k hk
        rw [← heq]
        exact message_lists_duplicates hk

/-- C3 witness: on two records sharing the year 1981, `make_key(['year'])`
raises the duplicate-key error carrying `['1981', '1981']`, and the message
mentions the repeated key value `1981`. -/
theorem c3_make_key_duplicates_witness :
    (Bibliography.make_key
        [[("ENTRYTYPE", "article"), ("ID", "1"), ("year", "1981")],
         [("ENTRYTYPE", "article"), ("ID", "2"), ("year", "1981")]] ["year"]).2
      = some (.duplicateKeys ["1981", "1981"]) ∧
    strContainsSub (BibError.message (.duplicateKeys ["1981", "1981"])) "1981" = true := by
  have h := (c3_make_key_duplicates
      [[("ENTRYTYPE", "article"), ("ID", "1"), ("year", "1981")],
       [("ENTRYTYPE", "article"), ("ID", "2"), ("year", "1981")]] ["year"]).2.2.2
      (.duplicateKeys ["1981", "1981"]) (by rfl)
  rcases h with ⟨dups, hd, _, hcontain⟩
  have hdups : ["1981", "1981"] = dups := by
    cases hd
    rfl
  constructor
  · rfl
  · exact hcontain "1981" (by rw [← hdups]; exact List.mem_cons_self _ _)

/-- C5 counterexample: constructing a bibliography from two records that
share `ID = 'MR1'` raises the duplicate-identifier error, but the message
is a fixed string that does not mention the offending value `MR1` — the
message does not enumerate the duplicate IDs, contrary to the claim. -/
theorem c5_message_counterexample :
    Bibliography.setData
        [[("ENTRYTYPE", "article"), ("ID", "MR1")],
         [("ENTRYTYPE", "book"), ("ID", "MR1")]]
      = .error .duplicateIds ∧
    strContainsSub (BibError.message .duplicateIds) "MR1" = false := by
  exact ⟨rfl, rfl⟩

/-- C5 amended: replacing a bibliography's data by a well-formed record
list with repeated `ID` values raises the duplicate-identifier error, but
its message is the constant string `Your bibliography contains duplicate
ID-s.` — it does not enumerate the offending IDs. -/
theorem c5_duplicate_id_error (data : List Record)
    (h1 : data.all Bibliography.test_entry = true)
    (h2 : ¬ (Bibliography.idsOf data).Nodup) :
    Bibliography.setData data = .error .duplicateIds ∧
    BibError.message .duplicateIds = "Your bibliography contains duplicate ID-s." :=
  ⟨Bibliography.setData_dup h1 h2, rfl⟩

/-- C5 witness: the amended claim at the concrete duplicate-`MR1` input. -/
theorem c5_duplicate_id_error_witness :
    Bibliography.setData
        [[("ENTRYTYPE", "article"), ("ID", "MR1")],
         [("ENTRYTYPE", "book"), ("ID", "MR1")]]
      = .error .duplicateIds ∧
    BibError.message .duplicateIds = "Your bibliography contains duplicate ID-s." :=
  c5_duplicate_id_error _ (by rfl) (by decide)

theorem map_eq_self_mem {α : Type} {f : α → α} {l : List α} (h : l.map f = l) :
    ∀ x ∈ l, f x = x := by
  induction l with
  | nil => intro x hx; simp at hx
  | cons a l' ih =>
    intro x hx
    rcases List.mem_cons.mp hx with h' | h'
    · subst h'
      exact (List.cons.inj h).1
    · exact ih (List.cons.inj h).2 x h'

/-- C6 amended: when `add_fields` is given a function that raises on some
record, the error propagates, but the collection is left partially
mutated: the records before the failing one (in iteration order) keep the
newly added field, while the failing record and all later ones are
untouched. -/
theorem c6_add_fields_partial {name : String} {f : Record → Except BibError String}
    {data d' : List Record} {e : BibError}
    (h : Bibliography.addFieldOne name f data = (d', some e)) :
    ∃ pre fail rest, data = pre ++ fail :: rest ∧
      d' = pre.map (Bibliography.applyF name f) ++ fail :: rest ∧
      f fail = .error e ∧
      (∀ r ∈ pre, ∃ v, f r = .ok v) := by
  induction data generalizing d' with
  | nil =>
    unfold Bibliography.addFieldOne at h
    exact absurd (congrArg Prod.snd h) (by simp)
  | cons r rs ih =>
    unfold Bibliography.addFieldOne at h
    cases hf : f r with
    | error e0 =>
      rw [hf] at h
      have h' : ((r :: rs, some e0) : List Record × Option BibError) = (d', some e) := h
      have h1 : r :: rs = d' := congrArg Prod.fst h'
      have h2 : e0 = e := Option.some.inj (congrArg Prod.snd h')
      refine ⟨[], r, rs, rfl, ?_, ?_, ?_⟩
      · rw [← h1]
        rfl
      · rw [hf, h2]
      · intro r' hr'
        simp at hr'
    | ok v =>
      rw [hf] at h
      have h' : ((Dict.insert r name v :: (Bibliography.addFieldOne name f rs).1,
          (Bibliography.addFieldOne name f rs).2) : List Record × Option BibError)
            = (d', some e) := h
      have h1 : Dict.insert r name v :: (Bibliography.addFieldOne name f rs).1 = d' :=
        congrArg Prod.fst h'
      have h2 : (Bibliography.addFieldOne name f rs).2 = some e :=
        congrArg Prod.snd h'
      rcases ih (show Bibliography.addFieldOne name f rs
          = ((Bibliography.addFieldOne name f rs).1, some e) from by
        rw [← h2]) with ⟨pre, fail, rest, hd, hd', hferr, hpre⟩
      refine ⟨r :: pre, fail, rest, by rw [List.cons_append, ← hd], ?_, hferr, ?_⟩
      · rw [← h1, hd']
        show Dict.insert r name v :: _ = _
        rw [List.map_cons]
        have ha : Bibliography.applyF name f r = Dict.insert r name v := by
          unfold Bibliography.applyF
          rw [hf]
        rw [ha, List.cons_append]
      · intro r' hr'
        rcases List.mem_cons.mp hr' with h'' | h''
        · subst h''
          exact ⟨v, hf⟩
        · exact hpre r' h''

/-- C6 counterexample: `add_fields` with `norm_author` (here with the
external name normalizer and decoder instantiated by `some` and `id`) on a
two-record collection whose second record lacks the `author` field raises
the missing-field error, but the first record keeps the freshly added
`normauthor` field — the prior state is not restored, contrary to the
claim that no record keeps a partially added field. -/
theorem c6_partial_field_counterexample :
    Bibliography.add_fields [("normauthor", Bibliography.norm_author some id)]
        [[("ENTRYTYPE", "article"), ("ID", "a"), ("author", "X")],
         [("ENTRYTYPE", "article"), ("ID", "b")]]
      = ([[("ENTRYTYPE", "article"), ("ID", "a"), ("author", "X"), ("normauthor", "X")],
          [("ENTRYTYPE", "article"), ("ID", "b")]],
         some (.missingField "author")) ∧
    Dict.get? [("ENTRYTYPE", "article"), ("ID", "a"), ("author", "X"), ("normauthor", "X")]
        "normauthor" = some "X" := by
  exact ⟨rfl, rfl⟩

/-- C6 witness: the amended claim applied at the counterexample input:
the failing record is the second one, the first keeps the new field. -/
theorem c6_add_fields_partial_witness :
    ∃ pre fail rest,
      ([[("ENTRYTYPE", "article"), ("ID", "a"), ("author", "X")],
        [("ENTRYTYPE", "article"), ("ID", "b")]] : List Record)
          = pre ++ fail :: rest ∧
      ([[("ENTRYTYPE", "article"), ("ID", "a"), ("author", "X"), ("normauthor", "X")],
        [("ENTRYTYPE", "article"), ("ID", "b")]] : List Record)
          = pre.map (Bibliography.applyF "normauthor" (Bibliography.norm_author some id))
              ++ fail :: rest ∧
      Bibliography.norm_author some id fail = .error (.missingField "author") ∧
      (∀ r ∈ pre, ∃ v, Bibliography.norm_author some id r = .ok v) :=
  c6_add_fields_partial (by rfl)

/-- C1 amended: `merge(a, b, keys)` mutates its inputs.  On a successful
call the receiver's records are exactly the originals with the field
`KEY` inserted (holding the computed merge key), and they keep that field
after the call, so whenever some record of `a` lacked a `KEY` field the
input collection is modified.  (`b` is mutated as well — its records gain
`KEY`, which is stripped again only on those records the union result
aliases — and the returned collection aliases those records of `b`.) -/
theorem c1_merge_mutates_inputs {aData bData : List Record} {keys : List String}
    {u : Bool} {out : Bibliography.MergeOut}
    (hok : Bibliography.merge aData bData keys u = .ok out) :
    out.aAfter = Bibliography.withKeys keys aData ∧
    (∀ r ∈ out.aAfter, (Dict.get? r Bibliography.MERGEKEY).isSome = true) ∧
    ((∃ r ∈ aData, Dict.hasKey r Bibliography.MERGEKEY = false) → out.aAfter ≠ aData) := by
  have hka := Bibliography.merge_ok_nodup_left hok
  have hkb := Bibliography.merge_ok_nodup_right hok
  rw [Bibliography.merge_of_nodup hka hkb] at hok
  rcases Bibliography.mergeTail_ok_inv hok with ⟨_, hout⟩
  subst hout
  refine ⟨rfl, ?_, ?_⟩
  · intro r hr
    rcases List.mem_map.mp hr with ⟨e, _, he⟩
    rw [← he, Dict.get?_insert_self]
    rfl
  · rintro ⟨r, hr, hfree⟩ heq
    have heq' : Bibliography.withKeys keys aData = aData := heq
    have hpt := map_eq_self_mem heq' r hr
    rw [Dict.insert_of_not_hasKey (NormalizeTeX.make_key r keys) (by simp [hfree])] at hpt
    have hlen := congrArg List.length hpt
    simp at hlen

/-- C1 counterexample: a concrete successful `merge` call after which the
left input's record has gained the field `KEY` — the input collection is
modified, contrary to the claim that both inputs are left unmodified. -/
theorem c1_inputs_modified_counterexample :
    Bibliography.merge
        [[("ENTRYTYPE", "article"), ("ID", "x")]]
        [[("ENTRYTYPE", "article"), ("ID", "y")]] ["ID"] true
      = .ok ⟨[[("ENTRYTYPE", "article"), ("ID", "x")], [("ENTRYTYPE", "article"), ("ID", "y")]],
             [[("ENTRYTYPE", "article"), ("ID", "x"), ("KEY", "x")]],
             [[("ENTRYTYPE", "article"), ("ID", "y")]]⟩ ∧
    [[("ENTRYTYPE", "article"), ("ID", "x"), ("KEY", "x")]]
      ≠ [[("ENTRYTYPE", "article"), ("ID", "x")]] := by
  exact ⟨rfl, by decide⟩

/-- C1 witness: the amended claim applied at the concrete call of the
counterexample input — the mutated left input differs from the original. -/
theorem c1_merge_mutates_inputs_witness :
    (Bibliography.MergeOut.mk
        [[("ENTRYTYPE", "article"), ("ID", "x")], [("ENTRYTYPE", "article"), ("ID", "y")]]
        [[("ENTRYTYPE", "article"), ("ID", "x"), ("KEY", "x")]]
        [[("ENTRYTYPE", "article"), ("ID", "y")]]).aAfter
      ≠ [[("ENTRYTYPE", "article"), ("ID", "x")]] :=
  have hok : Bibliography.merge
      [[("ENTRYTYPE", "article"), ("ID", "x")]]
      [[("ENTRYTYPE", "article"), ("ID", "y")]] ["ID"] true
    = .ok ⟨[[("ENTRYTYPE", "article"), ("ID", "x")], [("ENTRYTYPE", "article"), ("ID", "y")]],
           [[("ENTRYTYPE", "article"), ("ID", "x"), ("KEY", "x")]],
           [[("ENTRYTYPE", "article"), ("ID", "y")]]⟩ := rfl
  (c1_merge_mutates_inputs hok).2.2
    ⟨[("ENTRYTYPE", "article"), ("ID", "x")], by decide, by decide⟩

/-! ## The string order used by `list.sort()` -/

theorem strLeChars_total : ∀ x y : List Char,
    NormalizeTeX.strLeChars x y = true ∨ NormalizeTeX.strLeChars y x = true
  | [], _ => Or.inl rfl
  | _ :: _, [] => Or.inr rfl
  | a :: as, b :: bs => by
    rcases Nat.lt_trichotomy a.toNat b.toNat with h | h | h
    · left
      unfold NormalizeTeX.strLeChars
      rw [if_pos h]
    · have hab : a = b := Char.eq_of_val_eq (UInt32.toNat.inj h)
      subst hab
      rcases strLeChars_total as bs with ih | ih
      · left
        unfold NormalizeTeX.strLeChars
        rw [if_neg (by omega), if_neg (by omega)]
        exact ih
      · right
        unfold NormalizeTeX.strLeChars
        rw [if_neg (by omega), if_neg (by omega)]
        exact ih
    · right
      unfold NormalizeTeX.strLeChars
      rw [if_pos h]

theorem strLeChars_trans : ∀ x y z : List Char,
    NormalizeTeX.strLeChars x y = true → NormalizeTeX.strLeChars y z = true →
      NormalizeTeX.strLeChars x z = true
  | [], _, _ => fun _ _ => rfl
  | _ :: _, [], _ => fun h _ => by simp [NormalizeTeX.strLeChars] at h
  | _ :: _, _ :: _, [] => fun _ h => by simp [NormalizeTeX.strLeChars] at h
  | a :: as, b :: bs, c :: cs => fun h1 h2 => by
    unfold NormalizeTeX.strLeChars at h1 h2 ⊢
    by_cases hab : a.toNat < b.toNat
    · by_cases hbc : b.toNat < c.toNat
      · rw [if_pos (by omega : a.toNat < c.toNat)]
      · by_cases hcb : c.toNat < b.toNat
        · rw [if_neg hbc, if_pos hcb] at h2
          exact absurd h2 (by simp)
        · rw [if_pos (by omega : a.toNat < c.toNat)]
    · by_cases hba : b.toNat < a.toNat
      · rw [if_neg hab, if_pos hba] at h1
        exact absurd h1 (by simp)
      · rw [if_neg hab, if_neg hba] at h1
        by_cases hbc : b.toNat < c.toNat
        · rw [if_pos (by omega : a.toNat < c.toNat)]
        · by_cases hcb : c.toNat < b.toNat
          · rw [if_neg hbc, if_pos hcb] at h2
            exact absurd h2 (by simp)
          · rw [if_neg hbc, if_neg hcb] at h2
            rw [if_neg (by omega : ¬ a.toNat < c.toNat),
              if_neg (by omega : ¬ c.toNat < a.toNat)]
            exact strLeChars_trans as bs cs h1 h2

theorem strLeChars_antisymm : ∀ x y : List Char,
    NormalizeTeX.strLeChars x y = true → NormalizeTeX.strLeChars y x = true → x = y
  | [], [], _, _ => rfl
  | [], _ :: _, _, h2 => by simp [NormalizeTeX.strLeChars] at h2
  | _ :: _, [], h1, _ => by simp [NormalizeTeX.strLeChars] at h1
  | a :: as, b :: bs, h1, h2 => by
    unfold NormalizeTeX.strLeChars at h1 h2
    by_cases hab : a.toNat < b.toNat
    · rw [if_neg (by omega), if_pos hab] at h2
      exact absurd h2 (by simp)
    · by_cases hba : b.toNat < a.toNat
      · rw [if_neg hab, if_pos hba] at h1
        exact absurd h1 (by simp)
      · rw [if_neg hab, if_neg hba] at h1
        rw [if_neg hba, if_neg hab] at h2
        have hv : a.toNat = b.toNat := by omega
        have hEq : a = b := Char.eq_of_val_eq (UInt32.toNat.inj hv)
        rw [hEq, strLeChars_antisymm as bs h1 h2]

instance : IsTotal String (fun s t => NormalizeTeX.pyStrLe s t = true) :=
  ⟨fun s t => strLeChars_total s.toList t.toList⟩

instance : IsTrans String (fun s t => NormalizeTeX.pyStrLe s t = true) :=
  ⟨fun a b c h1 h2 => strLeChars_trans a.toList b.toList c.toList h1 h2⟩

instance : IsAntisymm String (fun s t => NormalizeTeX.pyStrLe s t = true) :=
  ⟨fun a b h1 h2 => String.ext (strLeChars_antisymm a.toList b.toList h1 h2)⟩

theorem sortStrings_congr {l₁ l₂ : List String} (h : List.Perm l₁ l₂) :
    NormalizeTeX.sortStrings l₁ = NormalizeTeX.sortStrings l₂ := by
  unfold NormalizeTeX.sortStrings
  exact List.eq_of_perm_of_sorted
    (((List.perm_insertionSort _ l₁).trans h).trans
      (List.perm_insertionSort _ l₂).symm)
    (List.sorted_insertionSort _ l₁)
    (List.sorted_insertionSort _ l₂)

theorem norm_author_str_perm (gn : String → Option String) (post : String → String)
    {a₁ a₂ : String} (hp : List.Perm (pySplit " and " a₁) (pySplit " and " a₂)) :
    NormalizeTeX.norm_author_str gn post a₁ = NormalizeTeX.norm_author_str gn post a₂ := by
  have hperm : List.Perm
      ((((pySplit " and " a₁).filterMap gn).map NormalizeTeX.surnamePart).map
        (NormalizeTeX.norm_author_one post))
      ((((pySplit " and " a₂).filterMap gn).map NormalizeTeX.surnamePart).map
        (NormalizeTeX.norm_author_one post)) :=
    ((hp.filterMap gn).map NormalizeTeX.surnamePart).map (NormalizeTeX.norm_author_one post)
  show pyJoin " " (NormalizeTeX.sortStrings
      ((((pySplit " and " a₁).filterMap gn).map NormalizeTeX.surnamePart).map
        (NormalizeTeX.norm_author_one post)))
    = pyJoin " " (NormalizeTeX.sortStrings
      ((((pySplit " and " a₂).filterMap gn).map NormalizeTeX.surnamePart).map
        (NormalizeTeX.norm_author_one post)))
  rw [sortStrings_congr hperm]

/-- C7: `norm_author` is invariant under permutation of the
`" and "`-separated author list: for any two records whose `author` fields
split into permuted name lists, the normalized signatures agree — for
every behaviour of the external name normalizer `gn` (`bc.getnames`,
applied per name) and decoder `post`. -/
theorem c7_norm_author_permutation (gn : String → Option String)
    (post : String → String) (r₁ r₂ : Record) (a₁ a₂ : String)
    (h₁ : Dict.get? r₁ "author" = some a₁) (h₂ : Dict.get? r₂ "author" = some a₂)
    (hp : List.Perm (pySplit " and " a₁) (pySplit " and " a₂)) :
    Bibliography.norm_author gn post r₁ = Bibliography.norm_author gn post r₂ := by
  unfold Bibliography.norm_author
  rw [h₁, h₂]
  show Except.ok (NormalizeTeX.norm_author_str gn post a₁)
    = Except.ok (NormalizeTeX.norm_author_str gn post a₂)
  rw [norm_author_str_perm gn post hp]

/-- C7 witness: permuting two concrete authors does not change the
normalized author signature. -/
theorem c7_norm_author_permutation_witness :
    Bibliography.norm_author some id [("author", "Alice and Bob")]
      = Bibliography.norm_author some id [("author", "Bob and Alice")] :=
  c7_norm_author_permutation some id _ _ "Alice and Bob" "Bob and Alice" rfl rfl
    (by decide)

/-! ## Character lemmas for `norm_title` idempotence -/

theorem mk_toList (s : String) : String.mk s.toList = s := rfl

theorem char_toNat_ofNat {n : Nat} (h : n < 55296) : (Char.ofNat n).toNat = n := by
  unfold Char.ofNat
  rw [dif_pos (Or.inl h)]
  rfl

theorem toLower_eq_of_upper {c : Char} (h : 65 ≤ c.toNat ∧ c.toNat ≤ 90) :
    Char.toLower c = Char.ofNat (c.toNat + 32) := by
  unfold Char.toLower
  rw [if_pos h]

theorem toLower_eq_of_not_upper {c : Char} (h : ¬ (65 ≤ c.toNat ∧ c.toNat ≤ 90)) :
    Char.toLower c = c := by
  unfold Char.toLower
  rw [if_neg h]

theorem toLower_toLower (c : Char) :
    Char.toLower (Char.toLower c) = Char.toLower c := by
  by_cases h : 65 ≤ c.toNat ∧ c.toNat ≤ 90
  · rw [toLower_eq_of_upper h]
    apply toLower_eq_of_not_upper
    rw [char_toNat_ofNat (by omega)]
    omega
  · rw [toLower_eq_of_not_upper h, toLower_eq_of_not_upper h]

theorem norm_title_out_alnum (post : String → String) (s : String) :
    (NormalizeTeX.norm_title_str post s).toList.all Char.isAlphanum = true := by
  rw [List.all_eq_true]
  intro c hc
  exact List.of_mem_filter hc

theorem splitSepAux_single_nosep {c0 : Char} :
    ∀ (fuel : Nat) (s : List Char), (∀ c ∈ s, c ≠ c0) →
      splitSepAux [c0] fuel s = [s]
  | 0, _ => fun _ => rfl
  | _ + 1, [] => fun _ => rfl
  | fuel + 1, c :: cs => fun h => by
    have hc : c ≠ c0 := h c (by simp)
    have hpre : ([c0].isPrefixOf (c :: cs)) = false := by
      show (c0 == c && List.isPrefixOf [] cs) = false
      rw [beq_eq_false_iff_ne.mpr fun he => absurd he.symm hc]
      rfl
    have hno : ¬ (([c0] : List Char) ≠ [] ∧ [c0].isPrefixOf (c :: cs) = true) := by
      intro hcon
      rw [hpre] at hcon
      exact absurd hcon.2 (by simp)
    unfold splitSepAux
    rw [if_neg hno, splitSepAux_single_nosep fuel cs fun c' h' => h c' (by simp [h'])]
    rfl

theorem removeFormulas_id {s : String} (h : ∀ c ∈ s.toList, c ≠ '$') :
    NormalizeTeX.removeFormulas s = s := by
  have h1 : pySplit "$" s = [s] := by
    unfold pySplit
    have h2 : ("$" : String).toList = ['$'] := rfl
    rw [h2, splitSepAux_single_nosep s.toList.length s.toList h]
    rfl
  unfold NormalizeTeX.removeFormulas
  rw [h1]
  rfl

theorem strReplaceAux_id {p0 : Char} {ps sub : List Char} :
    ∀ (fuel : Nat) (s : List Char), (∀ c ∈ s, c ≠ p0) →
      strReplaceAux (p0 :: ps) sub fuel s = s
  | 0, _ => fun _ => rfl
  | _ + 1, [] => fun _ => rfl
  | fuel + 1, c :: cs => fun h => by
    have hc : c ≠ p0 := h c (by simp)
    have hpre : ((p0 :: ps).isPrefixOf (c :: cs)) = false := by
      show (p0 == c && ps.isPrefixOf cs) = false
      rw [beq_eq_false_iff_ne.mpr fun he => absurd he.symm hc]
      rfl
    have hno : ¬ ((p0 :: ps) ≠ [] ∧ (p0 :: ps).isPrefixOf (c :: cs) = true) := by
      intro hcon
      rw [hpre] at hcon
      exact absurd hcon.2 (by simp)
    unfold strReplaceAux
    rw [if_neg hno, strReplaceAux_id fuel cs fun c' h' => h c' (by simp [h'])]

theorem foldl_replace_id :
    ∀ (l : List (String × String)) (cs : List Char),
      (∀ p ∈ l, p.1.toList.head? = some '\\') → (∀ c ∈ cs, c ≠ '\\') →
      l.foldl (fun s p => strReplace p.1.toList p.2.toList s) cs = cs
  | [], _ => fun _ _ => rfl
  | p :: rest, cs => fun hl hc => by
    have hh := hl p (by simp)
    cases hp : p.1.toList with
    | nil =>
      rw [hp] at hh
      exact absurd hh (by simp)
    | cons p0 ptail =>
      rw [hp] at hh
      have hp0 : p0 = '\\' := by simpa using hh
      have hrep : strReplace p.1.toList p.2.toList cs = cs := by
        unfold strReplace
        rw [hp, hp0]
        exact strReplaceAux_id cs.length cs hc
      show List.foldl _ (strReplace p.1.toList p.2.toList cs) rest = cs
      rw [hrep]
      exact foldl_replace_id rest cs (fun q hq => hl q (by simp [hq])) hc

theorem applyReplacements_id {cs : List Char} (h : ∀ c ∈ cs, c ≠ '\\') :
    NormalizeTeX.applyReplacements cs = cs :=
  foldl_replace_id NormalizeTeX.latexToAsciiDict cs (by decide) h

theorem norm_title_idem (post : String → String)
    (hpost : ∀ s : String, s.toList.all Char.isAlphanum = true → post s = s)
    (s : String) :
    NormalizeTeX.norm_title_str post (NormalizeTeX.norm_title_str post s)
      = NormalizeTeX.norm_title_str post s := by
  set t := NormalizeTeX.norm_title_str post s
  have htal : t.toList.all Char.isAlphanum = true := norm_title_out_alnum post s
  have hal : ∀ c ∈ t.toList, c.isAlphanum = true := by
    rw [List.all_eq_true] at htal
    exact htal
  have hnd : ∀ c ∈ t.toList, c ≠ '$' := by
    intro c hc he
    have h0 := hal c hc
    rw [he] at h0
    exact absurd h0 (by decide)
  have hnb : ∀ c ∈ t.toList, c ≠ '\\' := by
    intro c hc he
    have h0 := hal c hc
    rw [he] at h0
    exact absurd h0 (by decide)
  have h1 : NormalizeTeX.removeFormulas t = t := removeFormulas_id hnd
  have h2 : NormalizeTeX.latex_to_ascii post t = t := by
    unfold NormalizeTeX.latex_to_ascii
    rw [applyReplacements_id hnb, mk_toList]
    exact hpost t htal
  have h3 : t.toList.map Char.toLower = t.toList := by
    have ht2 : t.toList = List.filter Char.isAlphanum
        ((NormalizeTeX.latex_to_ascii post
          (NormalizeTeX.removeFormulas s)).toList.map Char.toLower) := rfl
    rw [ht2, List.filter_map, List.map_map]
    exact List.map_congr_left fun a _ => toLower_toLower a
  have h4 : List.filter Char.isAlphanum t.toList = t.toList :=
    List.filter_eq_self.mpr fun c hc => hal c hc
  show NormalizeTeX.keepAlnum (String.mk
      ((NormalizeTeX.latex_to_ascii post (NormalizeTeX.removeFormulas t)).toList.map
        Char.toLower)) = t
  rw [h1, h2, h3, mk_toList]
  show String.mk (List.filter Char.isAlphanum t.toList) = t
  rw [h4, mk_toList]

/-- C8: `norm_title` is idempotent: if `norm_title(r)` succeeds with value
`t`, then applying `norm_title` to a record whose `title` is `t` returns
`t` again — the output contains no residual whitespace, formula markers or
special characters for a second application to strip.  `post` is the
external decoder (`latex_to_unicode` + NFD + ASCII projection), assumed
only to leave plain alphanumeric ASCII text unchanged, which the spec's
interface for it guarantees. -/
theorem c8_norm_title_idempotent (post : String → String)
    (hpost : ∀ s : String, s.toList.all Char.isAlphanum = true → post s = s)
    (r : Record) (t : String)
    (h : Bibliography.norm_title post r = .ok t) :
    Bibliography.norm_title post [("title", t)] = .ok t := by
  unfold Bibliography.norm_title at h ⊢
  cases hg : Dict.get? r "title" with
  | none =>
    rw [hg] at h
    exact absurd h (by simp)
  | some s =>
    rw [hg] at h
    have ht : t = NormalizeTeX.norm_title_str post s := (Except.ok.inj h).symm
    rw [show Dict.get? [("title", t)] "title" = some t from rfl]
    show Except.ok (NormalizeTeX.norm_title_str post t) = Except.ok t
    rw [ht, norm_title_idem post hpost s]

/-- C8 witness: the idempotence at a concrete record (with the external
decoder instantiated by `id`). -/
theorem c8_norm_title_idempotent_witness :
    Bibliography.norm_title id [("title", "ab1")] = .ok "ab1" :=
  c8_norm_title_idempotent id (fun _ _ => rfl) [("title", "A b1")] "ab1" (by rfl)

/-! ## Lemmas for the union/merge claims -/

namespace Bibliography

theorem keyList_id (data : List Record) : keyList ["ID"] data = idsOf data := rfl

theorem values_byKey {l : List Record} (hn : (l.map keyOf).Nodup) :
    Dict.values (byKey l) = l := by
  rw [byKey_eq hn]
  unfold Dict.values
  rw [List.map_map]
  have h : ∀ e ∈ l, ((fun x => x.2) ∘ fun e => (keyOf e, e)) e = id e := fun _ _ => rfl
  rw [List.map_congr_left h, List.map_id]

theorem test_entry_insert {e : Record} {k v : String} (h : test_entry e = true) :
    test_entry (Dict.insert e k v) = true := by
  unfold test_entry at h ⊢
  rw [Bool.and_eq_true] at h ⊢
  exact ⟨Dict.hasKey_insert_iff.mpr (Or.inr h.1),
    Dict.hasKey_insert_iff.mpr (Or.inr h.2)⟩

theorem test_entry_erase {e : Record} (h : test_entry e = true) :
    test_entry (Dict.erase e MERGEKEY) = true := by
  unfold test_entry at h ⊢
  rw [Bool.and_eq_true] at h
  rcases h with ⟨h1, h2⟩
  unfold Dict.hasKey at h1 h2 ⊢
  rw [Dict.get?_erase_ne _ (by decide), Dict.get?_erase_ne _ (by decide)]
  rw [Bool.and_eq_true]
  exact ⟨h1, h2⟩

theorem get?_id_insert_key (e : Record) (v : String) :
    Dict.get? (Dict.insert e MERGEKEY v) "ID" = Dict.get? e "ID" :=
  Dict.get?_insert_ne e v (by decide)

theorem get?_et_insert_key (e : Record) (v : String) :
    Dict.get? (Dict.insert e MERGEKEY v) "ENTRYTYPE" = Dict.get? e "ENTRYTYPE" :=
  Dict.get?_insert_ne e v (by decide)

theorem idsOf_withKeys (keys : List String) (data : List Record) :
    idsOf (withKeys keys data) = idsOf data := by
  unfold idsOf withKeys
  rw [List.map_map]
  apply List.map_congr_left
  intro e _
  show (Dict.get? (Dict.insert e MERGEKEY (NormalizeTeX.make_key e keys)) "ID").getD "" = _
  rw [get?_id_insert_key]

theorem wf_withKeys {data : List Record} (h : wfRecords data) :
    ∀ r ∈ withKeys keys data, (Dict.keys r).Nodup := by
  intro r hr
  rcases List.mem_map.mp hr with ⟨e, he, heq⟩
  rw [← heq]
  exact Dict.nodup_keys_insert _ (h e he)

theorem all_test_entry_withKeys {data : List Record} (keys : List String)
    (h : data.all test_entry = true) :
    (withKeys keys data).all test_entry = true := by
  rw [List.all_eq_true] at h ⊢
  intro r hr
  rcases List.mem_map.mp hr with ⟨e, he, heq⟩
  rw [← heq]
  exact test_entry_insert (h e he)

theorem nodup_withKeys_keyOf {data : List Record} {keys : List String}
    (h : (keyList keys data).Nodup) :
    ((withKeys keys data).map keyOf).Nodup := by
  rw [withKeys_keyOf]
  exact h

theorem mergeTail_of_setData_ok {a1 b1 : List Record} {u : Bool} {v : List Record}
    (hval : Dict.values (mergeCore a1 b1 u) = v) (hok : setData v = .ok v) :
    mergeTail a1 b1 u = .ok ⟨del_fields [MERGEKEY] v, a1, bAfterOf a1 b1 u⟩ := by
  have hdef : mergeTail a1 b1 u =
      (match setData (Dict.values (mergeCore a1 b1 u)) with
       | .error e => .error e
       | .ok validated =>
         .ok ⟨del_fields [MERGEKEY] validated, a1, bAfterOf a1 b1 u⟩) := rfl
  rw [hdef, hval, hok]

end Bibliography

theorem phi_eq_left {a1 b1 : List Record} {p : String × Record}
    (hS : Dict.get? (Bibliography.byKey a1) p.1 = some p.2)
    (hO : Dict.get? (Bibliography.byKey b1) p.1 = none)
    (hwf : (Dict.keys p.2).Nodup) :
    ((p.1,
      (match Dict.get? (Bibliography.byKey a1) p.1 with
       | some s => Dict.update (match Dict.get? (Bibliography.byKey b1) p.1 with
                                | some o => Dict.update p.2 o
                                | none => p.2) s
       | none => (match Dict.get? (Bibliography.byKey b1) p.1 with
                  | some o => Dict.update p.2 o
                  | none => p.2))) : String × Record) = p := by
  rw [hS, hO]
  show (p.1, Dict.update p.2 p.2) = p
  rw [Dict.update_self hwf]

theorem phi_eq_right {a1 b1 : List Record} {p : String × Record}
    (hS : Dict.get? (Bibliography.byKey a1) p.1 = none)
    (hO : Dict.get? (Bibliography.byKey b1) p.1 = some p.2)
    (hwf : (Dict.keys p.2).Nodup) :
    ((p.1,
      (match Dict.get? (Bibliography.byKey a1) p.1 with
       | some s => Dict.update (match Dict.get? (Bibliography.byKey b1) p.1 with
                                | some o => Dict.update p.2 o
                                | none => p.2) s
       | none => (match Dict.get? (Bibliography.byKey b1) p.1 with
                  | some o => Dict.update p.2 o
                  | none => p.2))) : String × Record) = p := by
  rw [hS, hO]
  show (p.1, Dict.update p.2 p.2) = p
  rw [Dict.update_self hwf]

/-- C4 counterexample: `union(a, b)` on disjoint ID sets where a record of
`a` happens to carry a field named `KEY` — a valid record.  The call
succeeds with length |a| + |b|, but the result's record set is *not* the
union of the input record sets: the reserved `KEY` field has been
overwritten and stripped, so `a`'s record is not in the result. -/
theorem c4_union_counterexample :
    Bibliography.union
        [[("ENTRYTYPE", "article"), ("ID", "x"), ("KEY", "v")]]
        [[("ENTRYTYPE", "article"), ("ID", "y")]]
      = .ok ⟨[[("ENTRYTYPE", "article"), ("ID", "x")], [("ENTRYTYPE", "article"), ("ID", "y")]],
             [[("ENTRYTYPE", "article"), ("ID", "x"), ("KEY", "x")]],
             [[("ENTRYTYPE", "article"), ("ID", "y")]]⟩ ∧
    ([("ENTRYTYPE", "article"), ("ID", "x"), ("KEY", "v")] : Record)
      ∉ [[("ENTRYTYPE", "article"), ("ID", "x")], [("ENTRYTYPE", "article"), ("ID", "y")]] := by
  exact ⟨rfl, by decide⟩

/-- C4 amended: for valid collections with disjoint `ID` sets *none of
whose records carries the reserved field `KEY`*, `union(a, b)` (which is
`merge(a, b, 'ID', union=True)` by definition) succeeds and its result is
exactly `a`'s records followed by `b`'s records — hence the record set is
the set union and the length is |a| + |b|. -/
theorem c4_union_disjoint {aData bData : List Record}
    (hva : validColl aData) (hvb : validColl bData)
    (hdisj : ∀ i ∈ Bibliography.idsOf aData, i ∉ Bibliography.idsOf bData)
    (hnka : ∀ r ∈ aData, Dict.hasKey r Bibliography.MERGEKEY = false)
    (hnkb : ∀ r ∈ bData, Dict.hasKey r Bibliography.MERGEKEY = false) :
    ∃ out, Bibliography.union aData bData = .ok out ∧
      out.result = aData ++ bData := by
  obtain ⟨hwa, hta, hia⟩ := hva
  obtain ⟨hwb, htb, hib⟩ := hvb
  have hkla : (Bibliography.keyList ["ID"] aData).Nodup := by
    rw [Bibliography.keyList_id]
    exact hia
  have hklb : (Bibliography.keyList ["ID"] bData).Nodup := by
    rw [Bibliography.keyList_id]
    exact hib
  set a1 := Bibliography.withKeys ["ID"] aData with ha1
  set b1 := Bibliography.withKeys ["ID"] bData with hb1
  have hna : (a1.map Bibliography.keyOf).Nodup := by
    rw [ha1, Bibliography.withKeys_keyOf]
    exact hkla
  have hnb : (b1.map Bibliography.keyOf).Nodup := by
    rw [hb1, Bibliography.withKeys_keyOf]
    exact hklb
  have haids : a1.map Bibliography.keyOf = Bibliography.idsOf aData := by
    rw [ha1, Bibliography.withKeys_keyOf, Bibliography.keyList_id]
  have hbids : b1.map Bibliography.keyOf = Bibliography.idsOf bData := by
    rw [hb1, Bibliography.withKeys_keyOf, Bibliography.keyList_id]
  have hdisjSO : ∀ k ∈ Dict.keys (Bibliography.byKey b1),
      Dict.hasKey (Bibliography.byKey a1) k = false := by
    intro k hk
    rw [Bibliography.keys_byKey hnb, hbids] at hk
    cases hKA : Dict.hasKey (Bibliography.byKey a1) k with
    | false => rfl
    | true =>
      exfalso
      have hmem : k ∈ Dict.keys (Bibliography.byKey a1) :=
        Dict.hasKey_iff_mem_keys.mp hKA
      rw [Bibliography.keys_byKey hna, haids] at hmem
      exact hdisj k hmem hk
  have hupd : Dict.update (Bibliography.byKey a1) (Bibliography.byKey b1)
      = Bibliography.byKey a1 ++ Bibliography.byKey b1 :=
    Dict.update_fresh (Bibliography.nodup_keys_byKey hnb) hdisjSO
  have hwfa1 : ∀ r ∈ a1, (Dict.keys r).Nodup := by
    rw [ha1]
    exact Bibliography.wf_withKeys hwa
  have hwfb1 : ∀ r ∈ b1, (Dict.keys r).Nodup := by
    rw [hb1]
    exact Bibliography.wf_withKeys hwb
  have hmc : Bibliography.mergeCore a1 b1 true
      = Bibliography.byKey a1 ++ Bibliography.byKey b1 := by
    have h0 : Bibliography.mergeCore a1 b1 true
        = (Dict.update (Bibliography.byKey a1) (Bibliography.byKey b1)).map (fun p =>
          (p.1,
            (match Dict.get? (Bibliography.byKey a1) p.1 with
             | some s => Dict.update (match Dict.get? (Bibliography.byKey b1) p.1 with
                                      | some o => Dict.update p.2 o
                                      | none => p.2) s
             | none => (match Dict.get? (Bibliography.byKey b1) p.1 with
                        | some o => Dict.update p.2 o
                        | none => p.2)))) := rfl
    rw [h0, hupd]
    have hpt : ∀ p ∈ Bibliography.byKey a1 ++ Bibliography.byKey b1,
        ((p.1,
          (match Dict.get? (Bibliography.byKey a1) p.1 with
           | some s => Dict.update (match Dict.get? (Bibliography.byKey b1) p.1 with
                                    | some o => Dict.update p.2 o
                                    | none => p.2) s
           | none => (match Dict.get? (Bibliography.byKey b1) p.1 with
                      | some o => Dict.update p.2 o
                      | none => p.2))) : String × Record) = p := by
      intro p hp
      rcases List.mem_append.mp hp with hpS | hpO
      · have hinv := Bibliography.byKey_mem_inv
          (show ((p.1, p.2) : String × Record) ∈ Bibliography.byKey a1 from hpS) hna
        have hS : Dict.get? (Bibliography.byKey a1) p.1 = some p.2 := by
          rw [← hinv.2]
          exact Bibliography.byKey_get? hna hinv.1
        have hO : Dict.get? (Bibliography.byKey b1) p.1 = none := by
          apply Dict.get?_eq_none_of_hasKey_false
          cases hKB : Dict.hasKey (Bibliography.byKey b1) p.1 with
          | false => rfl
          | true =>
            exfalso
            have hmem : p.1 ∈ Dict.keys (Bibliography.byKey b1) :=
              Dict.hasKey_iff_mem_keys.mp hKB
            rw [Bibliography.keys_byKey hnb, hbids] at hmem
            have hmema : p.1 ∈ Bibliography.idsOf aData := by
              rw [← haids, ← hinv.2]
              exact List.mem_map_of_mem _ hinv.1
            exact hdisj p.1 hmema hmem
        exact phi_eq_left hS hO (hwfa1 p.2 hinv.1)
      · have hinv := Bibliography.byKey_mem_inv
          (show ((p.1, p.2) : String × Record) ∈ Bibliography.byKey b1 from hpO) hnb
        have hO : Dict.get? (Bibliography.byKey b1) p.1 = some p.2 := by
          rw [← hinv.2]
          exact Bibliography.byKey_get? hnb hinv.1
        have hS : Dict.get? (Bibliography.byKey a1) p.1 = none :=
          Dict.get?_eq_none_of_hasKey_false
            (hdisjSO p.1 (Dict.hasKey_iff_mem_keys.mp (by
              unfold Dict.hasKey
              rw [hO]
              rfl)))
        exact phi_eq_right hS hO (hwfb1 p.2 hinv.1)
    rw [List.map_congr_left hpt]
    simp
  have hvals : Dict.values (Bibliography.mergeCore a1 b1 true) = a1 ++ b1 := by
    rw [hmc]
    unfold Dict.values
    rw [List.map_append]
    show Dict.values (Bibliography.byKey a1) ++ Dict.values (Bibliography.byKey b1) = _
    rw [Bibliography.values_byKey hna, Bibliography.values_byKey hnb]
  have hids : Bibliography.idsOf (a1 ++ b1)
      = Bibliography.idsOf aData ++ Bibliography.idsOf bData := by
    have h1 : Bibliography.idsOf (a1 ++ b1)
        = Bibliography.idsOf a1 ++ Bibliography.idsOf b1 := List.map_append _ _ _
    rw [h1, ha1, hb1, Bibliography.idsOf_withKeys, Bibliography.idsOf_withKeys]
  have hsd : Bibliography.setData (a1 ++ b1) = .ok (a1 ++ b1) := by
    apply Bibliography.setData_ok
    · rw [List.all_append, Bool.and_eq_true]
      exact ⟨by rw [ha1]; exact Bibliography.all_test_entry_withKeys _ hta,
        by rw [hb1]; exact Bibliography.all_test_entry_withKeys _ htb⟩
    · rw [hids]
      exact List.Nodup.append hia hib (fun a ha hb => hdisj a ha hb)
  have hmt := Bibliography.mergeTail_of_setData_ok hvals hsd
  refine ⟨⟨Bibliography.del_fields [Bibliography.MERGEKEY] (a1 ++ b1), a1,
    Bibliography.bAfterOf a1 b1 true⟩, ?_, ?_⟩
  · show Bibliography.merge aData bData ["ID"] true = _
    rw [Bibliography.merge_of_nodup hkla hklb, ← ha1, ← hb1, hmt]
  · show Bibliography.del_fields [Bibliography.MERGEKEY] (a1 ++ b1) = aData ++ bData
    rw [Bibliography.del_fields_single, List.map_append]
    have hda : a1.map (fun e => Dict.erase e Bibliography.MERGEKEY) = aData := by
      rw [ha1]
      unfold Bibliography.withKeys
      rw [List.map_map]
      have hp : ∀ e ∈ aData,
          ((fun e => Dict.erase e Bibliography.MERGEKEY) ∘
            (fun e => Dict.insert e Bibliography.MERGEKEY
              (NormalizeTeX.make_key e ["ID"]))) e = id e := by
        intro e he
        show Dict.erase (Dict.insert e Bibliography.MERGEKEY _) Bibliography.MERGEKEY = e
        exact Dict.erase_insert_of_not_hasKey _ (by simp [hnka e he])
          (Dict.fst_ne_of_hasKey_false (hnka e he))
      rw [List.map_congr_left hp, List.map_id]
    have hdb : b1.map (fun e => Dict.erase e Bibliography.MERGEKEY) = bData := by
      rw [hb1]
      unfold Bibliography.withKeys
      rw [List.map_map]
      have hp : ∀ e ∈ bData,
          ((fun e => Dict.erase e Bibliography.MERGEKEY) ∘
            (fun e => Dict.insert e Bibliography.MERGEKEY
              (NormalizeTeX.make_key e ["ID"]))) e = id e := by
        intro e he
        show Dict.erase (Dict.insert e Bibliography.MERGEKEY _) Bibliography.MERGEKEY = e
        exact Dict.erase_insert_of_not_hasKey _ (by simp [hnkb e he])
          (Dict.fst_ne_of_hasKey_false (hnkb e he))
      rw [List.map_congr_left hp, List.map_id]
    rw [hda, hdb]

/-- C4 witness: the amended claim at a concrete disjoint pair. -/
theorem c4_union_disjoint_witness :
    ∃ out, Bibliography.union
        [[("ENTRYTYPE", "article"), ("ID", "x")]]
        [[("ENTRYTYPE", "book"), ("ID", "y")]] = .ok out ∧
      out.result = [[("ENTRYTYPE", "article"), ("ID", "x")]]
        ++ [[("ENTRYTYPE", "book"), ("ID", "y")]] :=
  c4_union_disjoint
    ⟨by intro r hr; fin_cases hr <;> decide, by decide, by decide⟩
    ⟨by intro r hr; fin_cases hr <;> decide, by decide, by decide⟩
    (by decide) (by intro r hr; fin_cases hr <;> decide)
    (by intro r hr; fin_cases hr <;> decide)

theorem withKeys_id_facts {data : List Record}
    (ht : data.all Bibliography.test_entry = true) :
    ∀ r ∈ Bibliography.withKeys ["ID"] data,
      Dict.get? r "ID" = some (Bibliography.keyOf r) ∧
      ∃ v, Dict.get? r "ENTRYTYPE" = some v := by
  intro r hr
  rcases List.mem_map.mp hr with ⟨e, he, heq⟩
  rw [List.all_eq_true] at ht
  have hte := ht e he
  unfold Bibliography.test_entry at hte
  rw [Bool.and_eq_true] at hte
  have hetS : (Dict.get? e "ENTRYTYPE").isSome = true := hte.1
  have hidS : (Dict.get? e "ID").isSome = true := hte.2
  rcases Option.isSome_iff_exists.mp hetS with ⟨w, hw⟩
  rcases Option.isSome_iff_exists.mp hidS with ⟨i, hi⟩
  subst heq
  constructor
  · rw [Bibliography.get?_id_insert_key, Bibliography.keyOf_insert]
    have hmk : NormalizeTeX.make_key e ["ID"] = (Dict.get? e "ID").getD "" := rfl
    rw [hmk, hi]
    rfl
  · exact ⟨w, by rw [Bibliography.get?_et_insert_key]; exact hw⟩

/-- C10: `union` on two valid bibliographies never raises: the merge keys
are the (duplicate-free) IDs, so both `make_key` calls succeed, and with
`union=True` the joined dict is keyed by ID, so the validation of the
result finds well-structured entries with pairwise distinct IDs even when
the two bibliographies share IDs.  The successful result again validates:
every record has `ENTRYTYPE` and `ID`, and the IDs are duplicate-free. -/
theorem c10_union_never_raises {aData bData : List Record}
    (hva : validColl aData) (hvb : validColl bData) :
    ∃ out, Bibliography.union aData bData = .ok out ∧
      out.result.all Bibliography.test_entry = true ∧
      (Bibliography.idsOf out.result).Nodup := by
  obtain ⟨hwa, hta, hia⟩ := hva
  obtain ⟨hwb, htb, hib⟩ := hvb
  have hkla : (Bibliography.keyList ["ID"] aData).Nodup := by
    rw [Bibliography.keyList_id]
    exact hia
  have hklb : (Bibliography.keyList ["ID"] bData).Nodup := by
    rw [Bibliography.keyList_id]
    exact hib
  set a1 := Bibliography.withKeys ["ID"] aData with ha1
  set b1 := Bibliography.withKeys ["ID"] bData with hb1
  have hna : (a1.map Bibliography.keyOf).Nodup := by
    rw [ha1, Bibliography.withKeys_keyOf]
    exact hkla
  have hnb : (b1.map Bibliography.keyOf).Nodup := by
    rw [hb1, Bibliography.withKeys_keyOf]
    exact hklb
  have hwfa1 : ∀ r ∈ a1, (Dict.keys r).Nodup := by
    rw [ha1]
    exact Bibliography.wf_withKeys hwa
  have hwfb1 : ∀ r ∈ b1, (Dict.keys r).Nodup := by
    rw [hb1]
    exact Bibliography.wf_withKeys hwb
  have hAfacts : ∀ r ∈ a1, Dict.get? r "ID" = some (Bibliography.keyOf r) ∧
      ∃ v, Dict.get? r "ENTRYTYPE" = some v := by
    rw [ha1]
    exact withKeys_id_facts hta
  have hBfacts : ∀ r ∈ b1, Dict.get? r "ID" = some (Bibliography.keyOf r) ∧
      ∃ v, Dict.get? r "ENTRYTYPE" = some v := by
    rw [hb1]
    exact withKeys_id_facts htb
  have htb1 : b1.all Bibliography.test_entry = true := by
    rw [hb1]
    exact Bibliography.all_test_entry_withKeys _ htb
  have hAllPairs : ∀ p ∈ Bibliography.mergeCore a1 b1 true,
      Dict.get? p.2 "ID" = some p.1 ∧ Bibliography.test_entry p.2 = true := by
    intro p hp
    rcases Bibliography.mergeCore_pair_cases hna hnb hwfa1 hwfb1 hp with
      ⟨ra1, hma, hk, hf⟩ | ⟨rb1, hmb, hk, hKA, hpe⟩
    · have hida := (hAfacts ra1 hma).1
      rcases (hAfacts ra1 hma).2 with ⟨w, hw⟩
      have hid : Dict.get? p.2 "ID" = some p.1 := by
        rw [hf "ID", hida, Dict.fieldPrec_some, hk]
      refine ⟨hid, ?_⟩
      unfold Bibliography.test_entry
      rw [Bool.and_eq_true]
      constructor
      · show (Dict.get? p.2 "ENTRYTYPE").isSome = true
        rw [hf "ENTRYTYPE", hw, Dict.fieldPrec_some]
        rfl
      · show (Dict.get? p.2 "ID").isSome = true
        rw [hid]
        rfl
    · have hidb := (hBfacts rb1 hmb).1
      have hid : Dict.get? p.2 "ID" = some p.1 := by
        rw [hpe, hidb, hk]
      refine ⟨hid, ?_⟩
      rw [hpe]
      rw [List.all_eq_true] at htb1
      exact htb1 rb1 hmb
  set vs := Dict.values (Bibliography.mergeCore a1 b1 true) with hvs
  have hvall : vs.all Bibliography.test_entry = true := by
    rw [List.all_eq_true]
    intro r hr
    rw [hvs] at hr
    rcases List.mem_map.mp hr with ⟨p, hp, hpr⟩
    rw [← hpr]
    exact (hAllPairs p hp).2
  have hvidkeys : Bibliography.idsOf vs = Dict.keys (Bibliography.mergeCore a1 b1 true) := by
    rw [hvs]
    unfold Bibliography.idsOf Dict.values Dict.keys
    rw [List.map_map]
    apply List.map_congr_left
    intro p hp
    show (Dict.get? p.2 "ID").getD "" = p.1
    rw [(hAllPairs p hp).1]
    rfl
  have hvnodup : (Bibliography.idsOf vs).Nodup := by
    rw [hvidkeys]
    exact Bibliography.nodup_keys_mergeCore hna hnb
  have hsd : Bibliography.setData vs = .ok vs := Bibliography.setData_ok hvall hvnodup
  have hmt := Bibliography.mergeTail_of_setData_ok hvs.symm hsd
  refine ⟨⟨Bibliography.del_fields [Bibliography.MERGEKEY] vs, a1,
    Bibliography.bAfterOf a1 b1 true⟩, ?_, ?_, ?_⟩
  · show Bibliography.merge aData bData ["ID"] true = _
    rw [Bibliography.merge_of_nodup hkla hklb, ← ha1, ← hb1, hmt]
  · show (Bibliography.del_fields [Bibliography.MERGEKEY] vs).all
      Bibliography.test_entry = true
    rw [Bibliography.del_fields_single, List.all_eq_true]
    intro r hr
    rcases List.mem_map.mp hr with ⟨e, he, heq⟩
    rw [← heq]
    rw [List.all_eq_true] at hvall
    exact Bibliography.test_entry_erase (hvall e he)
  · show (Bibliography.idsOf
      (Bibliography.del_fields [Bibliography.MERGEKEY] vs)).Nodup
    rw [Bibliography.del_fields_single]
    have h1 : Bibliography.idsOf (vs.map (fun e => Dict.erase e Bibliography.MERGEKEY))
        = Bibliography.idsOf vs := by
      unfold Bibliography.idsOf
      rw [List.map_map]
      apply List.map_congr_left
      intro e _
      show (Dict.get? (Dict.erase e Bibliography.MERGEKEY) "ID").getD "" = _
      rw [Dict.get?_erase_ne _ (by decide)]
    rw [h1]
    exact hvnodup

/-- C10 witness: two valid one-record bibliographies sharing the ID. -/
theorem c10_union_never_raises_witness :
    ∃ out, Bibliography.union
        [[("ENTRYTYPE", "article"), ("ID", "x"), ("author", "A")]]
        [[("ENTRYTYPE", "book"), ("ID", "x"), ("url", "u")]] = .ok out ∧
      out.result.all Bibliography.test_entry = true ∧
      (Bibliography.idsOf out.result).Nodup :=
  c10_union_never_raises
    ⟨by intro r hr; fin_cases hr; decide, by decide, by decide⟩
    ⟨by intro r hr; fin_cases hr; decide, by decide, by decide⟩

/-- C2 counterexample: a field named `KEY` on the inputs is NOT handled by
the documented precedence rule.  Merging overlapping records where `self`
has `KEY='v'` and `other` has `KEY='w'` yields a record with no `KEY`
field at all: the reserved slot is overwritten with the computed merge key
and then deleted, so `self`'s value 'v' is silently lost. -/
theorem c2_reserved_key_counterexample :
    Bibliography.merge
        [[("ENTRYTYPE", "article"), ("ID", "x"), ("KEY", "v")]]
        [[("ENTRYTYPE", "book"), ("ID", "x"), ("KEY", "w"), ("url", "u")]]
        ["ID"] true
      = .ok ⟨[[("ENTRYTYPE", "article"), ("ID", "x"), ("url", "u")]],
             [[("ENTRYTYPE", "article"), ("ID", "x"), ("KEY", "x")]],
             [[("ENTRYTYPE", "article"), ("ID", "x"), ("url", "u")]]⟩ ∧
    Dict.get? [("ENTRYTYPE", "article"), ("ID", "x"), ("url", "u")] "KEY" = none ∧
    Dict.get? [("ENTRYTYPE", "article"), ("ID", "x"), ("KEY", "v")] "KEY" = some "v" :=
  ⟨rfl, rfl, rfl⟩

/-- C2 amended: on a successful `merge`, whenever a record of `self` and a
record of `other` agree on the composite merge key, the result contains a
record that, *on every field other than the reserved name `KEY`*, holds
`self`'s value when present and `other`'s value otherwise (so fields
present only in `other` are preserved).  The reserved field `KEY` itself
is exempt: it is consumed by the merge machinery (see the
counterexample). -/
theorem c2_field_precedence {aData bData : List Record} {keys : List String}
    {u : Bool} {out : Bibliography.MergeOut}
    (hwa : wfRecords aData) (hwb : wfRecords bData)
    (hok : Bibliography.merge aData bData keys u = .ok out)
    {ra rb : Record} (hra : ra ∈ aData) (hrb : rb ∈ bData)
    (hkey : NormalizeTeX.make_key ra keys = NormalizeTeX.make_key rb keys) :
    ∃ r ∈ out.result, ∀ f, f ≠ Bibliography.MERGEKEY →
      Dict.get? r f = Dict.fieldPrec (Dict.get? ra f) (Dict.get? rb f) := by
  have hka := Bibliography.merge_ok_nodup_left hok
  have hkb := Bibliography.merge_ok_nodup_right hok
  rw [Bibliography.merge_of_nodup hka hkb] at hok
  set a1 := Bibliography.withKeys keys aData with ha1
  set b1 := Bibliography.withKeys keys bData with hb1
  set ra1 := Dict.insert ra Bibliography.MERGEKEY (NormalizeTeX.make_key ra keys)
    with hra1
  set rb1 := Dict.insert rb Bibliography.MERGEKEY (NormalizeTeX.make_key rb keys)
    with hrb1
  rcases Bibliography.mergeTail_ok_inv hok with ⟨hsd, hout⟩
  have hna : (a1.map Bibliography.keyOf).Nodup := by
    rw [ha1]
    exact Bibliography.nodup_withKeys_keyOf hka
  have hnb : (b1.map Bibliography.keyOf).Nodup := by
    rw [hb1]
    exact Bibliography.nodup_withKeys_keyOf hkb
  have hwfa1 : ∀ r ∈ a1, (Dict.keys r).Nodup := by
    rw [ha1]
    exact Bibliography.wf_withKeys hwa
  have hwfb1 : ∀ r ∈ b1, (Dict.keys r).Nodup := by
    rw [hb1]
    exact Bibliography.wf_withKeys hwb
  have hma : ra1 ∈ a1 := by
    rw [ha1, hra1]
    exact List.mem_map_of_mem _ hra
  have hmb : rb1 ∈ b1 := by
    rw [hb1, hrb1]
    exact List.mem_map_of_mem _ hrb
  have hkra1 : Bibliography.keyOf ra1 = NormalizeTeX.make_key ra keys := by
    rw [hra1]
    exact Bibliography.keyOf_insert _ _
  have hkrb1 : Bibliography.keyOf rb1 = NormalizeTeX.make_key rb keys := by
    rw [hrb1]
    exact Bibliography.keyOf_insert _ _
  rcases @Bibliography.mergeCore_exists_key a1 b1 u _ hna hnb hma with ⟨M, hM⟩
  rcases Bibliography.mergeCore_pair_cases hna hnb hwfa1 hwfb1 hM with
    ⟨ra1', hma', hk', hf⟩ | ⟨rb1', hmb', hk', hKA, hpe⟩
  · have hk2 : Bibliography.keyOf ra1' = Bibliography.keyOf ra1 := hk'
    have heq : ra1' = ra1 := List.inj_on_of_nodup_map hna hma' hma hk2
    subst heq
    have hOb : Dict.get? (Bibliography.byKey b1) (Bibliography.keyOf ra1)
        = some rb1 := by
      have h1 : Bibliography.keyOf rb1 = Bibliography.keyOf ra1 := by
        rw [hkrb1, hkra1, hkey]
      rw [← h1]
      exact Bibliography.byKey_get? hnb hmb
    refine ⟨Dict.erase M Bibliography.MERGEKEY, ?_, ?_⟩
    · rw [hout]
      show Dict.erase M Bibliography.MERGEKEY ∈
        Bibliography.del_fields [Bibliography.MERGEKEY]
          (Dict.values (Bibliography.mergeCore a1 b1 u))
      rw [Bibliography.del_fields_single]
      apply List.mem_map_of_mem
      exact List.mem_map_of_mem (fun p => p.2) hM
    · intro f hfne
      rw [Dict.get?_erase_ne _ hfne]
      have hfM : Dict.get? M f
          = Dict.fieldPrec (Dict.get? ra1 f)
              (suppOf b1 (Bibliography.keyOf ra1) f) := hf f
      rw [hfM, suppOf_some hOb f]
      have h2 : Dict.get? ra1 f = Dict.get? ra f := by
        rw [hra1]
        exact Dict.get?_insert_ne _ _ hfne
      have h3 : Dict.get? rb1 f = Dict.get? rb f := by
        rw [hrb1]
        exact Dict.get?_insert_ne _ _ hfne
      rw [h2, h3]
  · exfalso
    have hS : Dict.get? (Bibliography.byKey a1) (Bibliography.keyOf ra1)
        = some ra1 := Bibliography.byKey_get? hna hma
    have hT : Dict.hasKey (Bibliography.byKey a1) (Bibliography.keyOf ra1) = true := by
      unfold Dict.hasKey
      rw [hS]
      rfl
    have hKA2 : Dict.hasKey (Bibliography.byKey a1) (Bibliography.keyOf ra1)
        = false := hKA
    rw [hT] at hKA2
    exact Bool.noConfusion hKA2

/-- C2 witness: overlapping one-record inputs without a reserved `KEY`
field; the merged record keeps self's ENTRYTYPE and author, and gains
other's url. -/
theorem c2_field_precedence_witness :
    ∃ r ∈ [[("ENTRYTYPE", "article"), ("ID", "x"), ("url", "u"), ("author", "A")]],
      ∀ f, f ≠ Bibliography.MERGEKEY →
        Dict.get? r f = Dict.fieldPrec
          (Dict.get? [("ENTRYTYPE", "article"), ("ID", "x"), ("author", "A")] f)
          (Dict.get? [("ENTRYTYPE", "book"), ("ID", "x"), ("url", "u")] f) :=
  have hok : Bibliography.merge
      [[("ENTRYTYPE", "article"), ("ID", "x"), ("author", "A")]]
      [[("ENTRYTYPE", "book"), ("ID", "x"), ("url", "u")]] ["ID"] true
    = .ok ⟨[[("ENTRYTYPE", "article"), ("ID", "x"), ("url", "u"), ("author", "A")]],
           [[("ENTRYTYPE", "article"), ("ID", "x"), ("author", "A"), ("KEY", "x")]],
           [[("ENTRYTYPE", "article"), ("ID", "x"), ("url", "u"), ("author", "A")]]⟩ := rfl
  c2_field_precedence
    (by intro r hr; fin_cases hr; decide)
    (by intro r hr; fin_cases hr; decide)
    hok (by decide) (by decide) rfl
